import Mathlib

/-!
Verification of the Au binary-encoding tooling against its specification.

Each section embeds one component of the C++ source as Lean definitions:
pure functions become Lean functions, the stateful byte source becomes
explicit state passing over a record type, exceptions become Option or a
dedicated result type, and machine integers become Nat or Int (the embedded
comparisons never overflow 64 bits on the inputs considered).  External
collaborators (libc timegm, rapidjson result codes) are modelled from their
documented semantics; parts of the repository that are only declared here
(the record parser, the re-sync scanner, the JSON sink) are modelled from
the specification and marked as such in their doc comments.
-/

namespace Au

/-! ## Stats.cpp: the commafy helpers (claim C10)

`commafy(int64_t)` in Stats.cpp reads:

  std::string commafy(int64_t val) \x7b
    if (val > 0) return commafy(val);
    auto result = commafy(-val);
    result.insert(0, 1, '-');
    return result;
  \x7d

At this point in the translation unit only the `int64_t` overload is
declared (the `uint64_t` overload appears further down the file), so both
recursive calls resolve to the function itself.  Every control path makes
such a self-call before returning, so a call of the function terminates
exactly when its self-call terminates. -/

/-- The argument `commafy(int64_t)` passes to its self-call: `val` itself
when `val > 0`, and `-val` otherwise. -/
def commafyStep (val : Int) : Int :=
  if val > 0 then val else -val

/-- Termination of a call `commafy(int64_t val)`: since every control path
of the body makes the self-call `commafy(commafyStep val)` before
returning, a call terminates exactly when its self-call does.  As a least
fixed point this predicate holds precisely on the inputs for which the
recursion bottoms out. -/
inductive CommafyTerminates : Int → Prop where
  | step (val : Int) : CommafyTerminates (commafyStep val) → CommafyTerminates val

/-! ## Json2Au.cpp: exit codes of json2au (claim C5) -/

/-- rapidjson parse result code for success. -/
def kParseErrorNone : Nat := 0

/-- rapidjson parse result code for an empty document, the code the final
`Parse` call of the read loop reports at end of input. -/
def kParseErrorDocumentEmpty : Nat := 1

/-- The externally visible circumstances of one `json2au` invocation:
the positional arguments left after `argc -= 2; argv += 2`, whether the
input file opens, whether the output file opens, and the rapidjson code of
the final `ParseResult` once the encode loop stops. -/
structure J2AEnv where
  args : List String
  inOpens : Bool
  outOpens : Bool
  parseCode : Nat

/-- Embeds the control flow of `json2au` (Json2Au.cpp) that decides the
return value: wrong positional-argument count returns -1; a failed open of
the input, or of the output when it is not "-", returns 1; otherwise the
final parse code is returned, with `kParseErrorNone` and
`kParseErrorDocumentEmpty` both mapped to 0. -/
def json2auExit (e : J2AEnv) : Int :=
  if e.args.length < 2 || e.args.length > 3 then -1
  else
    let outFName := e.args.getD 1 "-"
    if !e.inOpens then 1
    else if outFName ≠ "-" && !e.outOpens then 1
    else if e.parseCode = kParseErrorNone || e.parseCode = kParseErrorDocumentEmpty then 0
    else (e.parseCode : Int)

/-! ## Stats.cpp and GrepHandler.h: where parse_error diagnostics go (claim C4) -/

/-- Outcome of running the decoder inside a driver: either it completes, or
it raises `parse_error` with a message. -/
inductive DecodeOutcome where
  | ok
  | parseError (msg : String)

/-- The observable channel effects and exit status of an invocation. -/
structure Channels where
  out : List String
  err : List String
  exitCode : Int

/-- Embeds `StatsDecoder::decode` plus the surrounding `stats` driver
(Stats.cpp): a `parse_error` is caught and its message printed to standard
output (`std::cout << e.what()`), the statistics report (abstracted as
`report`) follows on standard output, and the driver returns 0. -/
def statsInvocation (outcome : DecodeOutcome) (report : List String) : Channels :=
  { out :=
      (match outcome with
        | .parseError m => [m]
        | .ok => []) ++ report
    err := []
    exitCode := 0 }

/-- Embeds the catch block of `reallyDoGrep` (GrepHandler.h): a
`parse_error` is caught and its message printed to standard error
(`std::cerr << e.what()`); these are the standard-error emissions. -/
def grepErrEmissions (outcome : DecodeOutcome) : List String :=
  match outcome with
  | .parseError m => [m]
  | .ok => []

/-! ## Json2Au.cpp: the timestamp codec (claim C9)

`tryTime` is embedded from the source.  `timegm` is libc, modelled by the
standard civil-calendar algorithm for seconds since the Unix epoch (UTC).
The wire codec for a time value (opcode byte then zig-zag varint of the
nanosecond count) and the JSON sink rendering are code of this repository
that is not under src/; they are modelled from the spec, as marked. -/

/-- Truth of a character being an ASCII decimal digit, as the regex class
\d in the timestamp regular expression of Json2Au.cpp. -/
def isDigitCh (c : Char) : Bool :=
  48 ≤ c.toNat && c.toNat ≤ 57

/-- Numeric value of an ASCII decimal digit character. -/
def digitVal (c : Char) : Nat := c.toNat - 48

/-- Models libc `timegm` restricted to in-range field values: days from
1970-01-01 of the civil date (y, m, d), by the standard era/year-of-era
decomposition of the Gregorian calendar, with C++ truncating division. -/
def daysFromCivil (y m d : Int) : Int :=
  let y2 := if m ≤ 2 then y - 1 else y
  let era := (if 0 ≤ y2 then y2 else y2 - 399).tdiv 400
  let yoe := y2 - era * 400
  let mp := (m + 9).tmod 12
  let doy := (153 * mp + 2).tdiv 5 + d - 1
  let doe := yoe * 365 + yoe.tdiv 4 - yoe.tdiv 100 + doy
  era * 146097 + doe - 719468

/-- Models libc `timegm` on a `std::tm` holding in-range values: seconds
since the Unix epoch of the UTC civil time. -/
def timegmModel (y m d h mi s : Int) : Int :=
  daysFromCivil y m d * 86400 + h * 3600 + mi * 60 + s

/-- Embeds `JsonSaxHandler::tryTime` together with the length gate of
`JsonSaxHandler::String` (Json2Au.cpp): a string is recognized exactly when
it has the 26-character shape dddd-dd-ddTdd:dd:dd.dddddd (the anchored
regular expression of the source); the civil fields then go through
`timegm` (modelled by `timegmModel`), `-1` from `timegm` is rejected, and
the encoded value is `seconds(tt) + microseconds(mics)` as nanoseconds. -/
def tryTime (s : String) : Option Int :=
  match s.data with
  | [y1, y2, y3, y4, p1, o1, o2, p2, d1, d2, p3,
     h1, h2, p4, n1, n2, p5, c1, c2, p6, u1, u2, u3, u4, u5, u6] =>
    if p1 = '-' && p2 = '-' && p3 = 'T' && p4 = ':' && p5 = ':' && p6 = '.'
        && [y1, y2, y3, y4, o1, o2, d1, d2, h1, h2,
            n1, n2, c1, c2, u1, u2, u3, u4, u5, u6].all isDigitCh then
      let year : Int := 1000 * digitVal y1 + 100 * digitVal y2 + 10 * digitVal y3 + digitVal y4
      let mon : Int := 10 * digitVal o1 + digitVal o2
      let mday : Int := 10 * digitVal d1 + digitVal d2
      let hour : Int := 10 * digitVal h1 + digitVal h2
      let minute : Int := 10 * digitVal n1 + digitVal n2
      let sec : Int := 10 * digitVal c1 + digitVal c2
      let mics : Int := 100000 * digitVal u1 + 10000 * digitVal u2 + 1000 * digitVal u3
        + 100 * digitVal u4 + 10 * digitVal u5 + digitVal u6
      let tt := timegmModel year mon mday hour minute sec
      if tt = -1 then none
      else some (tt * 1000000000 + mics * 1000)
    else none
  | _ => none

/-- Zig-zag mapping of a signed 64-bit value, spec 4.1: n maps to
(n shifted left once) xor (n arithmetically shifted right 63 times). -/
def zigzag (n : Int) : Nat :=
  if 0 ≤ n then (2 * n).toNat else (-2 * n - 1).toNat

/-- Inverse of the zig-zag mapping. -/
def unzigzag (u : Nat) : Int :=
  if u % 2 = 0 then (u / 2 : Nat) else -((u / 2 : Nat) : Int) - 1

/-- Modelled from the spec: unsigned LEB128-style varint encoding (7-bit
little-endian groups, high bit = continuation), spec 4.1.  The fuel is the
spec's 10-byte maximum for a 64-bit value. -/
def encodeVarintAux : Nat → Nat → List Nat
  | 0, _ => []
  | fuel + 1, n => if n < 128 then [n] else (n % 128 + 128) :: encodeVarintAux fuel (n / 128)

/-- Modelled from the spec: varint encoding of a 64-bit value (spec 4.1). -/
def encodeVarint (n : Nat) : List Nat := encodeVarintAux 10 n

/-- Modelled from the spec: varint decoding; returns the value and the rest
of the byte list, or none on a truncated varint. -/
def decodeVarint : List Nat → Option (Nat × List Nat)
  | [] => none
  | b :: rest =>
    if b < 128 then some (b, rest)
    else (decodeVarint rest).map fun p => (p.1 * 128 + (b - 128), p.2)

/-- Modelled from the spec: the wire bytes of a time value, opcode byte
0x74 (lowercase t) followed by the signed varint of the nanosecond count
(spec 6, value body opcodes). -/
def encodeTimeValue (ns : Int) : List Nat :=
  116 :: encodeVarint (zigzag ns)

/-- Modelled from the spec: decoding a time value from its wire bytes,
spec 4.5 onTime: the opcode byte 0x74 then a signed varint of nanoseconds. -/
def decodeTimeValue (bs : List Nat) : Option Int :=
  match bs with
  | 116 :: rest => (decodeVarint rest).map fun p => unzigzag p.1
  | _ => none

/-- Inverse of `daysFromCivil` for nonnegative day counts: the civil date
(y, m, d) of a day number since 1970-01-01, standard algorithm. -/
def civilFromDays (z0 : Nat) : Nat × Nat × Nat :=
  let z := z0 + 719468
  let era := z / 146097
  let doe := z % 146097
  let yoe := (doe - doe / 1460 + doe / 36524 - doe / 146096) / 365
  let y := yoe + era * 400
  let doy := doe - (365 * yoe + yoe / 4 - yoe / 100)
  let mp := (5 * doy + 2) / 153
  let d := doy - (153 * mp + 2) / 5 + 1
  let m := if mp < 10 then mp + 3 else mp - 9
  if m ≤ 2 then (y + 1, m, d) else (y, m, d)

/-- The character of a decimal digit value. -/
def digitChar (n : Nat) : Char := Char.ofNat (48 + n % 10)

/-- Two fixed decimal digits. -/
def pad2 (n : Nat) : List Char := [digitChar (n / 10), digitChar n]

/-- Four fixed decimal digits. -/
def pad4 (n : Nat) : List Char :=
  [digitChar (n / 1000), digitChar (n / 100), digitChar (n / 10), digitChar n]

/-- Six fixed decimal digits. -/
def pad6 (n : Nat) : List Char :=
  [digitChar (n / 100000), digitChar (n / 10000), digitChar (n / 1000),
   digitChar (n / 100), digitChar (n / 10), digitChar n]

/-- Modelled from the spec: the JSON sink rendering of a nonnegative time
value (JsonOutputHandler, declared in src/test/AuDecoderTests.cpp but not
under src/): the nanosecond count is truncated to microseconds and printed
as the quoted UTC civil time yyyy-mm-ddThh:mm:ss.uuuuuu (spec 8,
scenario 2, and the unit test TEST(JsonOutputHandler, Time)). -/
def renderTimeJson (ns : Int) : String :=
  let micros := ns.toNat / 1000
  let frac := micros % 1000000
  let secs := micros / 1000000
  let days := secs / 86400
  let rem := secs % 86400
  let ymd := civilFromDays days
  String.mk ('"' :: pad4 ymd.1 ++ '-' :: pad2 ymd.2.1 ++ '-' :: pad2 ymd.2.2
    ++ 'T' :: pad2 (rem / 3600) ++ ':' :: pad2 (rem % 3600 / 60) ++ ':' :: pad2 (rem % 60)
    ++ '.' :: pad6 frac ++ ['"'])

/-! ## GrepHandler.h: the pattern matcher (claims C2, C3)

The decoder's value parser walks a value tree and calls the handler's
callbacks in order.  The tree is embedded as a mutual inductive (values,
array elements, object fields; object keys are strings, dictionary
references having been resolved to their strings).  Doubles are embedded
with payload type Int standing in for the IEEE-754 payload: the handler
only ever compares a double payload for equality against the pattern, so
the payload type is irrelevant to the control flow. -/

mutual
/-- A decoded Au value as the value parser delivers it to a handler. -/
inductive AuVal where
  | null
  | bool (b : Bool)
  | int (i : Int)
  | uint (u : Nat)
  | double (d : Int)
  | time (t : Int)
  | str (s : String)
  | arr (es : AuElems)
  | obj (fs : AuFields)

/-- Elements of an array value. -/
inductive AuElems where
  | nil
  | cons (v : AuVal) (rest : AuElems)

/-- Fields of an object value: key string and value, in order. -/
inductive AuFields where
  | nil
  | cons (k : String) (v : AuVal) (rest : AuFields)
end

/-- Number of elements of an array value. -/
def AuElems.length : AuElems → Nat
  | .nil => 0
  | .cons _ rest => rest.length + 1

/-- Number of fields of an object value. -/
def AuFields.length : AuFields → Nat
  | .nil => 0
  | .cons _ _ rest => rest.length + 1

/-- Embeds `Pattern::StrPattern` (GrepHandler.h). -/
structure StrPattern where
  pattern : String
  fullMatch : Bool

/-- Embeds `Pattern` (GrepHandler.h); only the fields the handler itself
reads.  `timestampPattern` is the half-open interval of nanosecond counts. -/
structure Pat where
  keyPattern : Option String := none
  intPattern : Option Int := none
  uintPattern : Option Nat := none
  doublePattern : Option Int := none
  strPattern : Option StrPattern := none
  timestampPattern : Option (Int × Int) := none

/-- Embeds `Pattern::requiresKeyMatch`. -/
def Pat.requiresKeyMatch (p : Pat) : Bool := p.keyPattern.isSome

/-- Embeds `Pattern::matchesKey`. -/
def Pat.matchesKey (p : Pat) (key : String) : Bool :=
  match p.keyPattern with
  | none => true
  | some kp => kp = key

/-- First index of an occurrence of `needle` in `hay`, the model of the
C library substring searches (memmem, string_view::find). -/
def firstOccur {α : Type} [DecidableEq α] (hay needle : List α) : Option Nat :=
  if needle.length ≤ hay.length then
    if hay.take needle.length = needle then some 0
    else
      match hay with
      | [] => none
      | _ :: t => (firstOccur t needle).map (· + 1)
  else none

/-- Embeds `Pattern::matchesValue(std::chrono::nanoseconds)`. -/
def Pat.matchesTime (p : Pat) (val : Int) : Bool :=
  match p.timestampPattern with
  | none => false
  | some i => i.1 ≤ val && val < i.2

/-- Embeds `Pattern::matchesValue(uint64_t)`. -/
def Pat.matchesUint (p : Pat) (val : Nat) : Bool :=
  match p.uintPattern with
  | none => false
  | some u => u = val

/-- Embeds `Pattern::matchesValue(int64_t)`. -/
def Pat.matchesInt (p : Pat) (val : Int) : Bool :=
  match p.intPattern with
  | none => false
  | some i => i = val

/-- Embeds `Pattern::matchesValue(double)`. -/
def Pat.matchesDouble (p : Pat) (val : Int) : Bool :=
  match p.doublePattern with
  | none => false
  | some d => d = val

/-- Embeds `Pattern::matchesValue(std::string_view)`. -/
def Pat.matchesStr (p : Pat) (sv : String) : Bool :=
  match p.strPattern with
  | none => false
  | some sp => if sp.fullMatch then sp.pattern = sv else (firstOccur sv.data sp.pattern.data).isSome

/-- Embeds `GrepHandler::Context`. -/
inductive Ctx where
  | bare
  | object
  | array
deriving DecidableEq

/-- Embeds `GrepHandler::ContextMarker`. -/
structure Marker where
  context : Ctx
  counter : Nat
  checkVal : Bool
deriving DecidableEq

/-- The mutable state of a `GrepHandler` during one `onValue`: the
`matched_` and `less_` flags and the context stack (head = back). -/
structure GState where
  matched : Bool
  less : Bool
  stack : List Marker
deriving DecidableEq

/-- Embeds `GrepHandler::isKey`. -/
def GState.isKey (g : GState) : Bool :=
  match g.stack with
  | m :: _ => m.context = Ctx.object && m.counter % 2 = 0
  | [] => false

/-- Embeds `GrepHandler::incrCounter`. -/
def GState.incrCounter (g : GState) : GState :=
  { g with stack :=
      match g.stack with
      | m :: t => { m with counter := m.counter + 1 } :: t
      | [] => [] }

/-- checkVal of the top context marker (`context_.back().checkVal`). -/
def GState.topCheck (g : GState) : Bool :=
  match g.stack with
  | m :: _ => m.checkVal
  | [] => false

/-- Replace checkVal of the top context marker. -/
def GState.setTopCheck (g : GState) (b : Bool) : GState :=
  { g with stack :=
      match g.stack with
      | m :: t => { m with checkVal := b } :: t
      | [] => [] }

/-- Embeds `GrepHandler::onInt` (GrepHandler.h): a checked match sets
`matched_`; a checked int value below the int pattern sets `less_`. -/
def onInt (p : Pat) (value : Int) (g : GState) : GState :=
  let g := if g.topCheck && p.matchesInt value then { g with matched := true } else g
  let g :=
    if g.topCheck && (match p.intPattern with
        | some ip => decide (value < ip)
        | none => false) then
      { g with less := true }
    else g
  g.incrCounter

/-- Embeds `GrepHandler::onUint`. -/
def onUint (p : Pat) (value : Nat) (g : GState) : GState :=
  let g := if g.topCheck && p.matchesUint value then { g with matched := true } else g
  let g :=
    if g.topCheck && (match p.uintPattern with
        | some up => decide (value < up)
        | none => false) then
      { g with less := true }
    else g
  g.incrCounter

/-- Embeds `GrepHandler::onTime`: the low bound of the half-open timestamp
interval plays the role the scalar pattern plays for int and uint. -/
def onTime (p : Pat) (value : Int) (g : GState) : GState :=
  let g := if g.topCheck && p.matchesTime value then { g with matched := true } else g
  let g :=
    if g.topCheck && (match p.timestampPattern with
        | some i => decide (value < i.1)
        | none => false) then
      { g with less := true }
    else g
  g.incrCounter

/-- Embeds `GrepHandler::onDouble`: no less-flag update. -/
def onDouble (p : Pat) (value : Int) (g : GState) : GState :=
  let g := if g.topCheck && p.matchesDouble value then { g with matched := true } else g
  g.incrCounter

/-- Embeds `GrepHandler::checkString`: for a key, record whether the key
matches the key pattern; for a value, a checked match sets `matched_`. -/
def checkString (p : Pat) (sv : String) (g : GState) : GState :=
  if g.isKey then g.setTopCheck (p.matchesKey sv)
  else if g.topCheck && p.matchesStr sv then { g with matched := true } else g

/-- One complete string delivery (onStringStart, fragments, onStringEnd),
and equally `onDictRef` with the dictionary string resolved: the
accumulated string goes through `checkString`, then the counter advances.
When the source skips accumulation (no string pattern and not a key match
situation) the stale buffer reaches `checkString` with `isKey` false and no
string pattern, so `checkString` has no effect either way and the embedding
with the true string is observationally equal. -/
def onString (p : Pat) (sv : String) (g : GState) : GState :=
  (checkString p sv g).incrCounter

/-- Embeds `GrepHandler::onObjectStart`: push (OBJECT, 0, false). -/
def onObjectStart (g : GState) : GState :=
  { g with stack := ⟨Ctx.object, 0, false⟩ :: g.stack }

/-- Embeds `GrepHandler::onObjectEnd`: pop, then advance the counter. -/
def onObjectEnd (g : GState) : GState :=
  ({ g with stack := g.stack.tail } : GState).incrCounter

/-- Embeds `GrepHandler::onArrayStart`: push (ARRAY, 0, parent checkVal). -/
def onArrayStart (g : GState) : GState :=
  { g with stack := ⟨Ctx.array, 0, g.topCheck⟩ :: g.stack }

/-- Embeds `GrepHandler::onArrayEnd`. -/
def onArrayEnd (g : GState) : GState :=
  ({ g with stack := g.stack.tail } : GState).incrCounter

mutual
/-- The callbacks the value parser issues for one value, applied to the
grep handler state in order (spec 4.5; the parser itself is not under
src/, but its traversal order over the value tree is fixed by the wire
format: leaves in order, objects as alternating key and value elements). -/
def runVal (p : Pat) : AuVal → GState → GState
  | .null, g => g.incrCounter
  | .bool _, g => g.incrCounter
  | .int i, g => onInt p i g
  | .uint u, g => onUint p u g
  | .double d, g => onDouble p d g
  | .time t, g => onTime p t g
  | .str s, g => onString p s g
  | .arr es, g => onArrayEnd (runElems p es (onArrayStart g))
  | .obj fs, g => onObjectEnd (runFields p fs (onObjectStart g))

/-- Array elements in order. -/
def runElems (p : Pat) : AuElems → GState → GState
  | .nil, g => g
  | .cons v rest, g => runElems p rest (runVal p v g)

/-- Object fields in order: each key is a string delivery, then its value. -/
def runFields (p : Pat) : AuFields → GState → GState
  | .nil, g => g
  | .cons k v rest, g => runFields p rest (runVal p v (onString p k g))
end

/-- Embeds `GrepHandler::onValue`: reset both flags, reset the context
stack to a single BARE marker whose checkVal is the negation of
`requiresKeyMatch`, then parse the value. -/
def grepVal (p : Pat) (v : AuVal) : GState :=
  runVal p v { matched := false, less := false
               stack := [⟨Ctx.bare, 0, !p.requiresKeyMatch⟩] }

mutual
/-- Declarative checked-scalar predicate: with check flag `c`, does the
value contain a scalar in a checked position satisfying `f`?  The flag
propagates unchanged into arrays; inside an object each value's flag is
whether its own key matches the key pattern, regardless of `c`. -/
def anyChecked (p : Pat) (f : AuVal → Bool) : Bool → AuVal → Bool
  | c, .arr es => anyCheckedElems p f c es
  | _, .obj fs => anyCheckedFields p f fs
  | c, v => c && f v

/-- anyChecked over array elements. -/
def anyCheckedElems (p : Pat) (f : AuVal → Bool) : Bool → AuElems → Bool
  | _, .nil => false
  | c, .cons v rest => anyChecked p f c v || anyCheckedElems p f c rest

/-- anyChecked over object fields: each value is checked under its key. -/
def anyCheckedFields (p : Pat) (f : AuVal → Bool) : AuFields → Bool
  | .nil => false
  | .cons k v rest => anyChecked p f (p.matchesKey k) v || anyCheckedFields p f rest
end

/-- The scalar condition that sets the `less_` flag: an int below the int
pattern, a uint below the uint pattern, or a time before the start of the
timestamp range; nothing else. -/
def lessLeaf (p : Pat) : AuVal → Bool
  | .int i =>
    match p.intPattern with
    | some ip => decide (i < ip)
    | none => false
  | .uint u =>
    match p.uintPattern with
    | some up => decide (u < up)
    | none => false
  | .time t =>
    match p.timestampPattern with
    | some i => decide (t < i.1)
    | none => false
  | _ => false

/-- The scalar condition that sets the `matched_` flag: the scalar matches
the pattern value of its own kind. -/
def matchLeaf (p : Pat) : AuVal → Bool
  | .int i => p.matchesInt i
  | .uint u => p.matchesUint u
  | .double d => p.matchesDouble d
  | .time t => p.matchesTime t
  | .str s => p.matchesStr s
  | _ => false

/-! ## GrepHandler.h: doBisect (claim C1)

The loop body of `doBisect` is embedded directly.  `seekSync` (seek plus
`TailHandler::sync`, whose code is not under src/) and the decoding of one
record (`RecordParser::parseUntilValue` driving the grep handler, equally
not under src/) enter as oracles: `sync pos` is the record boundary
seekSync establishes at or after `pos` (none when it throws), and
`precedes sor` is `grepHandler.recordPrecedesPattern()` after parsing the
record that begins at `sor` (none when `parseUntilValue` returns false and
the loop breaks). -/

/-- SCAN_THRESHOLD of `doBisect` (GrepHandler.h): 256 KiB. -/
def SCAN_THRESHOLD : Nat := 256 * 1024

/-- PREFIX_AMOUNT of `doBisect`: 512 KiB. -/
def PREFIX_AMOUNT : Nat := 512 * 1024

/-- SUFFIX_AMOUNT of `doBisect`: SCAN_THRESHOLD + PREFIX_AMOUNT + 266 KiB. -/
def SUFFIX_AMOUNT : Nat := SCAN_THRESHOLD + PREFIX_AMOUNT + 266 * 1024

/-- The collaborators of one `doBisect` run, as oracles (modelled from the
spec: resync positions the cursor at a record boundary at or after the
seek target, and decoding one record yields the record-precedes flag). -/
structure BisectEnv where
  endPos : Nat
  sync : Nat → Option Nat
  precedes : Nat → Option Bool

/-- What the bisect loop ends in: the linear scan (with its seek target and
scan-suffix budget), an early stop (sync failure, parse break, or an empty
window), or exhausted fuel of the embedding. -/
inductive BisectOutcome where
  | scan (seekTo : Nat) (suffix : Nat)
  | stopped
  | outOfFuel
deriving DecidableEq

/-- Embeds the `while (end > start)` loop of `doBisect` (GrepHandler.h).
Fuel only bounds the embedding's recursion; the source loop's own
termination rests on the file being finite. -/
def doBisectLoop (env : BisectEnv) : Nat → Nat → Nat → BisectOutcome
  | 0, _, _ => .outOfFuel
  | fuel + 1, start, stop =>
    if stop > start then
      if stop - start ≤ SCAN_THRESHOLD then
        .scan (if start > PREFIX_AMOUNT then start - PREFIX_AMOUNT else 0) SUFFIX_AMOUNT
      else
        match env.sync (start + (stop - start) / 2) with
        | none => .stopped
        | some sor =>
          match env.precedes sor with
          | none => .stopped
          | some b =>
            if b then doBisectLoop env fuel sor stop
            else doBisectLoop env fuel start sor
    else .stopped

/-- Embeds `doBisect`: the loop starts on the window [0, endPos). -/
def doBisect (env : BisectEnv) (fuel : Nat) : BisectOutcome :=
  doBisectLoop env fuel 0 env.endPos

/-- One bisection iteration of the claim between windows: the window is
wider than SCAN_THRESHOLD, resync from the midpoint finds a record at
`sor`, the record parses, and the flag moves `start` up to `sor` or `stop`
down to `sor`. -/
def BisectStep (env : BisectEnv) (w w2 : Nat × Nat) : Prop :=
  w.1 < w.2 ∧ SCAN_THRESHOLD < w.2 - w.1 ∧
    ∃ sor b, env.sync (w.1 + (w.2 - w.1) / 2) = some sor ∧
      env.precedes sor = some b ∧
      w2 = if b then (sor, w.2) else (w.1, sor)

/-! ## au/FileByteSource.h: the buffered byte source (claims C6, C7, C8)

The source is embedded as explicit state: `file` is the content of the
underlying regular file, `fileOff` the underlying stream offset, `buf` the
valid bytes of the working buffer (so `limit_ - buf_` is `buf.length` and
`cur_ - buf_` is `cur`), `pos` the absolute position, and `pin` the pinned
position.  `ioCount` counts the calls that reach the underlying source
(doRead, doSeek), so that "without touching the underlying source" is a
statement about a field.  `doRead` into `len` free bytes is modelled as the
deterministic full read min(len, remaining) of a regular file; exceptions
(grow failure never fires in the model, the failed read after a real seek,
eof inside readFunc) become `none`. -/

/-- MIN_HIST_SIZE of FileByteSource: 1 KiB. -/
def MIN_HIST_SIZE : Nat := 1024

/-- The state of a FileByteSource over a regular file. -/
structure FbsState where
  file : List Nat
  fileOff : Nat
  initBufSize : Nat
  bufSize : Nat
  buf : List Nat
  cur : Nat
  pos : Nat
  pin : Option Nat
  ioCount : Nat
deriving DecidableEq, Repr

/-- The history size `read()` keeps: MIN_HIST_SIZE, extended to cover a pin
behind the current position. -/
def histSz (s : FbsState) : Nat :=
  match s.pin with
  | some p => if p < s.pos then max MIN_HIST_SIZE (s.pos - p) else MIN_HIST_SIZE
  | none => MIN_HIST_SIZE

/-- The compaction memmove of `read()`: when the cursor is more than the
history size into the buffer, drop everything before cursor minus history. -/
def compact (s : FbsState) : FbsState :=
  if s.cur > histSz s then
    { s with buf := s.buf.drop (s.cur - histSz s), cur := histSz s }
  else s

/-- The growth step of `read()`: when no free space remains, the buffer
grows by the constant INIT_BUFFER_SIZE increment. -/
def grow (s : FbsState) : FbsState :=
  if s.bufSize - s.buf.length = 0 then { s with bufSize := s.bufSize + s.initBufSize } else s

/-- Embeds `FileByteSource::read` (FileByteSource.h) in non-tail mode:
compaction, growth, then one underlying read appending min(free,
remaining) bytes at the limit; false when zero bytes were read. -/
def readFb (s : FbsState) : Bool × FbsState :=
  let s2 := grow (compact s)
  let n := min (s2.bufSize - s2.buf.length) (s2.file.length - s2.fileOff)
  if n = 0 then (false, { s2 with ioCount := s2.ioCount + 1 })
  else (true, { s2 with
                ioCount := s2.ioCount + 1
                buf := s2.buf ++ (s2.file.drop s2.fileOff).take n
                fileOff := s2.fileOff + n })

/-- The while-loops of next/peek/readFunc/scanTo that call `read()` until
at least `want` bytes are available to be consumed, or `read()` reports no
more data. -/
def fillTo (want : Nat) (s : FbsState) : Bool × FbsState :=
  if want ≤ s.buf.length - s.cur then (true, s)
  else
    match h : readFb s with
    | (false, s1) => (false, s1)
    | (true, s1) => fillTo want s1
termination_by s.file.length - s.fileOff
decreasing_by
  have hd : s1.file = s.file ∧ s.fileOff < s1.fileOff ∧ s1.fileOff ≤ s.file.length := by
    have hgc : (grow (compact s)).file = s.file ∧ (grow (compact s)).fileOff = s.fileOff := by
      unfold grow compact
      split <;> split <;> exact ⟨rfl, rfl⟩
    simp only [readFb] at h
    split at h
    · simp at h
    · rename_i hn
      simp only [Prod.mk.injEq, true_and] at h
      subst h
      simp only [hgc.1, hgc.2] at hn ⊢
      refine ⟨by trivial, ?_, ?_⟩ <;> omega
  obtain ⟨he, h1, h2⟩ := hd
  simp only [he]
  omega

/-- Embeds `FileByteSource::next`: fill one byte (or report EOF, keeping
the mutated state as the source does), consume it. -/
def nextB (s : FbsState) : Option Nat × FbsState :=
  match fillTo 1 s with
  | (false, s1) => (none, s1)
  | (true, s1) => (some (s1.buf.getD s1.cur 0), { s1 with pos := s1.pos + 1, cur := s1.cur + 1 })

/-- Embeds `FileByteSource::peek`. -/
def peekB (s : FbsState) : Option Nat × FbsState :=
  match fillTo 1 s with
  | (false, s1) => (none, s1)
  | (true, s1) => (some (s1.buf.getD s1.cur 0), s1)

/-- Embeds `FileByteSource::readFunc` (read_exact): consume `len` bytes in
available-sized chunks, refilling between chunks; none models the throw on
eof.  The `first = 0` branch is unreachable (a successful fill leaves at
least one available byte, `fillTo_avail`); it only serves the termination
measure. -/
def readFunc : Nat → FbsState → Option FbsState
  | 0, s => some s
  | len + 1, s =>
    match fillTo 1 s with
    | (false, _) => none
    | (true, s1) =>
      let first := min (len + 1) (s1.buf.length - s1.cur)
      if first = 0 then none
      else readFunc (len + 1 - first) { s1 with pos := s1.pos + first, cur := s1.cur + first }
termination_by len _ => len
decreasing_by omega

/-- Embeds `FileByteSource::setPin`; the source asserts that the pinned
position is not before the start of the buffer. -/
def setPin (abspos : Nat) (s : FbsState) : FbsState :=
  { s with pin := some abspos }

/-- Embeds `FileByteSource::clearPin`. -/
def clearPin (s : FbsState) : FbsState :=
  { s with pin := none }

/-- Embeds `FileByteSource::seek`: a position within the retained history
moves the cursor and position only; otherwise the underlying stream is
sought (doSeek, one underlying operation), the buffer cleared, the pin
forgotten, and the buffer refilled by one read, whose failure (none) models
the "failed to read from new location" throw. -/
def seekB (abspos : Nat) (s : FbsState) : Option FbsState :=
  if abspos < s.pos ∧ s.pos - abspos ≤ s.cur then
    some { s with cur := s.cur - (s.pos - abspos), pos := abspos }
  else
    let s1 := { s with
                fileOff := abspos
                ioCount := s.ioCount + 1
                buf := []
                cur := 0
                pos := abspos
                pin := none }
    match readFb s1 with
    | (false, _) => none
    | (true, s2) => some s2

/-- Embeds `FileByteSource::skip`: seek forward by `len`. -/
def skipB (len : Nat) (s : FbsState) : Option FbsState :=
  seekB (s.pos + len) s

/-- What `scanTo` ends in: the needle found (cursor on its first byte),
the stream exhausted first (returning false), or the throw out of the
skip's reseek.  The state is carried on the non-throwing ends. -/
inductive ScanResult where
  | found (s : FbsState)
  | eof (s : FbsState)
  | err
deriving DecidableEq

/-- Embeds `FileByteSource::scanTo`: fill until the needle fits the
available bytes (else return false), search the available bytes, advance
to a hit, or skip to limit minus (needle length - 1) and continue.  The
guard comparing progress is unreachable for consistent states (the skip
strictly advances `pos`, `scanToAux_guard`); it only serves the
termination measure. -/
def scanToAux (needle : List Nat) (s : FbsState) : ScanResult :=
  match fillTo needle.length s with
  | (false, s1) => .eof s1
  | (true, s1) =>
    match firstOccur (s1.buf.drop s1.cur) needle with
    | some off => .found { s1 with pos := s1.pos + off, cur := s1.cur + off }
    | none =>
      match seekB (s1.pos + ((s1.buf.length - s1.cur) - (needle.length - 1))) s1 with
      | none => .err
      | some s2 =>
        if s.file.length - s.pos ≤ s2.file.length - s2.pos then .err
        else scanToAux needle s2
termination_by s.file.length - s.pos
decreasing_by omega

/-- One consumer operation of claim C7: next, peek, or read_exact. -/
inductive Op where
  | next
  | peek
  | readBytes (n : Nat)

/-- The state effect of one operation (the byte values next and peek
deliver do not feed back into the state). -/
def applyOp : Op → FbsState → Option FbsState
  | .next, s => some (nextB s).2
  | .peek, s => some (peekB s).2
  | .readBytes n, s => readFunc n s

/-- A sequence of consumer operations, stopping at a readFunc eof throw. -/
def runOps : List Op → FbsState → Option FbsState
  | [], s => some s
  | o :: os, s =>
    match applyOp o s with
    | none => none
    | some s1 => runOps os s1

/-- The pin is covered by the buffered history: at most `cur` bytes of the
stream lie between the pinned position and the current position. -/
def PinCovered (s : FbsState) : Prop :=
  ∀ p, s.pin = some p → s.pos - p ≤ s.cur

/-- The states reachable over a regular file: the cursor lies in the
buffer, the buffer is the slice of the file ending at the stream offset,
and the growth increment is positive. -/
def Consistent (s : FbsState) : Prop :=
  s.cur ≤ s.buf.length ∧ s.cur ≤ s.pos ∧
  s.fileOff = s.pos - s.cur + s.buf.length ∧
  s.buf = (s.file.drop (s.pos - s.cur)).take s.buf.length ∧
  s.fileOff ≤ s.file.length ∧ 0 < s.initBufSize ∧ s.buf.length ≤ s.bufSize

/-- The needle occurs in the file at position q. -/
def occursAt (file needle : List Nat) (q : Nat) : Prop :=
  (file.drop q).take needle.length = needle ∧ q + needle.length ≤ file.length

/-! ## Concrete states for counterexamples and witnesses -/

/-- A source over the three-byte file [1, 2, 3], fresh from construction
with a 4-byte initial buffer. -/
def fbsFresh : FbsState :=
  { file := [1, 2, 3], fileOff := 0, initBufSize := 4, bufSize := 4
    buf := [], cur := 0, pos := 0, pin := none, ioCount := 0 }

/-- The same source after one byte was consumed: the whole file is
buffered, the cursor is one byte in. -/
def fbsAfterOne : FbsState :=
  { file := [1, 2, 3], fileOff := 3, initBufSize := 4, bufSize := 4
    buf := [1, 2, 3], cur := 1, pos := 1, pin := none, ioCount := 1 }

/-- The fresh source after its first internal read: the whole file is
buffered, nothing consumed. -/
def fbsLoaded : FbsState :=
  { file := [1, 2, 3], fileOff := 3, initBufSize := 4, bufSize := 4
    buf := [1, 2, 3], cur := 0, pos := 0, pin := none, ioCount := 1 }

/-! # Theorems -/

/-! ## Claim C10: the signed commafy never terminates -/

/-- C10: the signed-integer overload commafy(int64_t) in Stats.cpp
terminates for no input.  Every control path of the body makes the
self-call commafy(commafyStep val) before returning (for val > 0 with val
itself, otherwise with -val; the uint64_t overload is declared only later
in the file and is never selected), so the termination predicate, the
least fixed point of "a call terminates when its self-call terminates",
is everywhere false. -/
theorem commafy_int64_never_terminates (val : Int) : CommafyTerminates val ↔ False := by
  constructor
  · intro h
    induction h with
    | step v _ ih => exact ih
  · intro h
    exact h.elim

/-! ## Claim C5: exit codes of json2au -/

/-- C5 counterexample: a usage error (wrong number of positional
arguments) makes json2au return -1, not the exit code 1 the claim
states. -/
theorem json2au_usage_exit_cex :
    json2auExit { args := [], inOpens := true, outOpens := true, parseCode := 0 } = -1 ∧
      (-1 : Int) ≠ 1 := by
  decide

/-- C5 amended: json2au returns 0 on success (a final parse code of None
or DocumentEmpty), -1 on a usage error (wrong number of positional
arguments), 1 on failure to open the input, or the output when it is not
"-", and otherwise propagates the JSON front-end's parse-error code, which
is then nonzero. -/
theorem json2au_exit_codes (e : J2AEnv) :
    (e.args.length < 2 ∨ 3 < e.args.length → json2auExit e = -1) ∧
    (2 ≤ e.args.length → e.args.length ≤ 3 → e.inOpens = false → json2auExit e = 1) ∧
    (2 ≤ e.args.length → e.args.length ≤ 3 → e.inOpens = true →
      e.args.getD 1 "-" ≠ "-" → e.outOpens = false → json2auExit e = 1) ∧
    (2 ≤ e.args.length → e.args.length ≤ 3 → e.inOpens = true →
      (e.args.getD 1 "-" = "-" ∨ e.outOpens = true) →
      (e.parseCode = kParseErrorNone ∨ e.parseCode = kParseErrorDocumentEmpty →
        json2auExit e = 0) ∧
      (kParseErrorDocumentEmpty < e.parseCode →
        json2auExit e = e.parseCode ∧ json2auExit e ≠ 0)) := by
  refine ⟨?_, ?_, ?_, ?_⟩
  · intro h
    unfold json2auExit
    rw [if_pos]
    simp only [Bool.or_eq_true, decide_eq_true_eq]
    omega
  · intro h1 h2 h3
    unfold json2auExit
    rw [if_neg (by simp only [Bool.or_eq_true, decide_eq_true_eq]; omega)]
    rw [if_pos (by rw [h3]; rfl)]
  · intro h1 h2 h3 h4 h5
    unfold json2auExit
    rw [if_neg (by simp only [Bool.or_eq_true, decide_eq_true_eq]; omega)]
    rw [if_neg (by rw [h3]; exact Bool.false_ne_true)]
    rw [if_pos (by simp only [h5, Bool.not_false, Bool.and_true, decide_eq_true_eq]; exact h4)]
  · intro h1 h2 h3 h4
    unfold json2auExit
    rw [if_neg (by simp only [Bool.or_eq_true, decide_eq_true_eq]; omega)]
    rw [if_neg (by rw [h3]; exact Bool.false_ne_true)]
    have hc3 : (decide (e.args.getD 1 "-" ≠ "-") && !e.outOpens) = false := by
      rcases h4 with h4 | h4
      · have hd : decide (e.args.getD 1 "-" ≠ "-") = false :=
          decide_eq_false (fun hne => hne h4)
        rw [hd, Bool.false_and]
      · rw [h4, Bool.not_true, Bool.and_false]
    rw [if_neg (by rw [hc3]; exact Bool.false_ne_true)]
    constructor
    · intro hc
      rw [if_pos (by simp only [Bool.or_eq_true, decide_eq_true_eq]; exact hc)]
    · intro hc
      have hne : ¬(e.parseCode = kParseErrorNone ∨ e.parseCode = kParseErrorDocumentEmpty) := by
        simp only [kParseErrorNone, kParseErrorDocumentEmpty] at hc ⊢
        omega
      rw [if_neg (by simp only [Bool.or_eq_true, decide_eq_true_eq]; exact hne)]
      have hz : 0 < e.parseCode := by
        simp only [kParseErrorDocumentEmpty] at hc
        omega
      exact ⟨rfl, by simp only [ne_eq, Int.natCast_eq_zero]; omega⟩

/-! ## Claim C4: where parse_error diagnostics go -/

/-- C4 counterexample: a parse_error during a stats invocation is printed
to standard output, standard error stays empty, and the invocation returns
0 - against the claim's standard-error channel and non-zero status. -/
theorem stats_parse_error_channel_cex :
    (statsInvocation (.parseError "parse error") []).err = [] ∧
    (statsInvocation (.parseError "parse error") []).exitCode = 0 ∧
    (statsInvocation (.parseError "parse error") []).out = ["parse error"] := by
  decide

/-- C4 amended: when the decoder raises a parse_error, the grep driver
prints the diagnostic to standard error; the stats driver prints it to
standard output, ahead of the statistics report, and the invocation
returns 0. -/
theorem parse_error_diagnostic_channels (m : String) (report : List String) :
    grepErrEmissions (.parseError m) = [m] ∧
    grepErrEmissions .ok = [] ∧
    (statsInvocation (.parseError m) report).out = m :: report ∧
    (statsInvocation (.parseError m) report).err = [] ∧
    (statsInvocation (.parseError m) report).exitCode = 0 ∧
    (statsInvocation .ok report).out = report := by
  exact ⟨rfl, rfl, rfl, rfl, rfl, rfl⟩

/-! ## Claim C9: the timestamp round trip -/

/-- The varint codec modelled from spec 4.1 is a bijection on the values
its fuel covers: decoding the encoding gives the value back with nothing
left over. -/
theorem decodeVarint_encodeVarintAux (fuel n : Nat) (h0 : 0 < fuel) (h : n < 128 ^ fuel) :
    decodeVarint (encodeVarintAux fuel n) = some (n, []) := by
  induction fuel generalizing n with
  | zero => omega
  | succ fuel ih =>
    rw [encodeVarintAux]
    by_cases hn : n < 128
    · rw [if_pos hn]
      unfold decodeVarint
      rw [if_pos hn]
    · rw [if_neg hn]
      have hf : 0 < fuel := by
        rcases Nat.eq_zero_or_pos fuel with h1 | h1
        · exfalso
          rw [h1] at h
          norm_num at h
          omega
        · exact h1
      have hq : n / 128 < 128 ^ fuel := by
        rw [Nat.div_lt_iff_lt_mul (by norm_num)]
        calc n < 128 ^ (fuel + 1) := h
          _ = 128 ^ fuel * 128 := by ring
      unfold decodeVarint
      rw [if_neg (by omega)]
      rw [ih (n / 128) hf hq]
      simp only [Option.map_some']
      have he : n / 128 * 128 + (n % 128 + 128 - 128) = n := by omega
      rw [he]

/-- The varint codec round trip at the 64-bit maximum value. -/
theorem decodeVarint_encodeVarint (n : Nat) (h : n < 2 ^ 64) :
    decodeVarint (encodeVarint n) = some (n, []) :=
  decodeVarint_encodeVarintAux 10 n (by norm_num) (by calc n < 2 ^ 64 := h
    _ ≤ 128 ^ 10 := by norm_num)

/-- The zig-zag mapping of spec 4.1 is inverted by unzigzag. -/
theorem unzigzag_zigzag (n : Int) : unzigzag (zigzag n) = n := by
  unfold zigzag unzigzag
  by_cases h : 0 ≤ n
  · rw [if_pos h]
    have h2 : ((2 * n).toNat % 2) = 0 := by omega
    rw [if_pos h2]
    omega
  · rw [if_neg h]
    have h2 : ¬((-2 * n - 1).toNat % 2 = 0) := by omega
    rw [if_neg h2]
    omega

/-! ## Claims C2 and C3: the grep handler's two flags

The imperative sweep of GrepHandler over a value tree is related to the
declarative checked-scalar predicate `anyChecked`: the handler state after
a subvalue is the old state with the flags extended by the subvalue's
checked scalars and the top counter advanced. -/

/-- When the top marker is an even-counter object marker, a string is a
key: checkString records whether it matches the key pattern, the flags are
untouched, and the counter advances. -/
theorem onString_key (p : Pat) (k : String) (m l : Bool) (c : Nat) (cv : Bool)
    (rest : List Marker) (hc : c % 2 = 0) :
    onString p k ⟨m, l, ⟨Ctx.object, c, cv⟩ :: rest⟩ =
      ⟨m, l, ⟨Ctx.object, c + 1, p.matchesKey k⟩ :: rest⟩ := by
  unfold onString checkString
  rw [if_pos (by simp [GState.isKey, hc])]
  rfl

/-- The common shape of onInt, onUint and onTime: conditionally set the
matched flag, conditionally set the less flag, advance the counter. -/
theorem twoFlag_eq (g : GState) (mv lv : Bool) :
    GState.incrCounter
      (if (if g.topCheck && mv then { g with matched := true } else g).topCheck && lv
        then { (if g.topCheck && mv then { g with matched := true } else g) with less := true }
        else (if g.topCheck && mv then { g with matched := true } else g)) =
    ⟨g.matched || (g.topCheck && mv), g.less || (g.topCheck && lv), g.incrCounter.stack⟩ := by
  obtain ⟨m, l, st⟩ := g
  cases st with
  | nil => cases mv <;> cases lv <;> cases m <;> cases l <;> rfl
  | cons mk tl =>
    obtain ⟨ctx, cnt, chk⟩ := mk
    cases chk <;> cases mv <;> cases lv <;> cases m <;> cases l <;> rfl

/-- The common shape of onDouble and of a non-key string: conditionally
set the matched flag, advance the counter. -/
theorem oneFlag_eq (g : GState) (mv : Bool) :
    GState.incrCounter (if g.topCheck && mv then { g with matched := true } else g) =
    ⟨g.matched || (g.topCheck && mv), g.less, g.incrCounter.stack⟩ := by
  obtain ⟨m, l, st⟩ := g
  cases st with
  | nil => cases mv <;> cases m <;> rfl
  | cons mk tl =>
    obtain ⟨ctx, cnt, chk⟩ := mk
    cases chk <;> cases mv <;> cases m <;> rfl

mutual
/-- The handler state after one value whose position is not a key: the
matched and less flags are extended by the value's checked scalars (under
the current checkVal), and the top counter advances. -/
theorem runVal_spec (p : Pat) (v : AuVal) (g : GState) (h : g.isKey = false) :
    runVal p v g = ⟨g.matched || anyChecked p (matchLeaf p) g.topCheck v,
                    g.less || anyChecked p (lessLeaf p) g.topCheck v,
                    g.incrCounter.stack⟩ := by
  cases v with
  | null =>
    simp [runVal, anyChecked, matchLeaf, lessLeaf, GState.incrCounter]
  | bool b =>
    simp [runVal, anyChecked, matchLeaf, lessLeaf, GState.incrCounter]
  | int i =>
    simp only [runVal, onInt]
    rw [twoFlag_eq]
    simp only [anyChecked, matchLeaf, lessLeaf, Pat.matchesInt]
  | uint u =>
    simp only [runVal, onUint]
    rw [twoFlag_eq]
    simp only [anyChecked, matchLeaf, lessLeaf, Pat.matchesUint]
  | double d =>
    simp only [runVal, onDouble]
    rw [oneFlag_eq]
    simp only [anyChecked, matchLeaf, lessLeaf, Pat.matchesDouble, Bool.and_false, Bool.or_false]
  | time t =>
    simp only [runVal, onTime]
    rw [twoFlag_eq]
    simp only [anyChecked, matchLeaf, lessLeaf, Pat.matchesTime]
  | str s =>
    simp only [runVal, onString, checkString]
    rw [if_neg (by rw [h]; exact Bool.false_ne_true)]
    rw [oneFlag_eq]
    simp only [anyChecked, matchLeaf, lessLeaf, Bool.and_false, Bool.or_false]
  | arr es =>
    obtain ⟨m, l, st⟩ := g
    simp only [runVal, onArrayStart]
    rw [runElems_spec p es m l 0 (GState.topCheck ⟨m, l, st⟩) st]
    simp only [onArrayEnd, anyChecked, GState.incrCounter, List.tail_cons]
  | obj fs =>
    obtain ⟨m, l, st⟩ := g
    simp only [runVal, onObjectStart]
    obtain ⟨cv2, heq⟩ := runFields_spec p fs m l 0 false st (by decide)
    rw [heq]
    simp only [onObjectEnd, anyChecked, GState.incrCounter, GState.topCheck, List.tail_cons]

/-- The handler state after the elements of an array: the flags are
extended element by element under the array marker's frozen checkVal, and
the array marker's counter advances by the element count. -/
theorem runElems_spec (p : Pat) (es : AuElems) (m l : Bool) (c : Nat) (cv : Bool)
    (rest : List Marker) :
    runElems p es ⟨m, l, ⟨Ctx.array, c, cv⟩ :: rest⟩ =
      ⟨m || anyCheckedElems p (matchLeaf p) cv es,
       l || anyCheckedElems p (lessLeaf p) cv es,
       ⟨Ctx.array, c + es.length, cv⟩ :: rest⟩ := by
  cases es with
  | nil => simp [runElems, anyCheckedElems, AuElems.length]
  | cons v vs =>
    simp only [runElems]
    rw [runVal_spec p v _ (by simp [GState.isKey])]
    simp only [GState.topCheck, GState.incrCounter]
    rw [runElems_spec p vs _ _ (c + 1) cv rest]
    have hcnt : c + 1 + vs.length = c + (vs.length + 1) := by omega
    simp only [anyCheckedElems, AuElems.length, Bool.or_assoc, hcnt]

/-- The handler state after the fields of an object: each key sets the
object marker's checkVal to its own key match, each value's scalars are
checked under that, and the counter advances by twice the field count. -/
theorem runFields_spec (p : Pat) (fs : AuFields) (m l : Bool) (c : Nat) (cv : Bool)
    (rest : List Marker) (hc : c % 2 = 0) :
    ∃ cv2, runFields p fs ⟨m, l, ⟨Ctx.object, c, cv⟩ :: rest⟩ =
      ⟨m || anyCheckedFields p (matchLeaf p) fs,
       l || anyCheckedFields p (lessLeaf p) fs,
       ⟨Ctx.object, c + 2 * fs.length, cv2⟩ :: rest⟩ := by
  cases fs with
  | nil => exact ⟨cv, by simp [runFields, anyCheckedFields, AuFields.length]⟩
  | cons k v fs2 =>
    simp only [runFields]
    rw [onString_key p k m l c cv rest hc]
    rw [runVal_spec p v _ (by simp [GState.isKey, Nat.add_mod, hc])]
    simp only [GState.topCheck, GState.incrCounter]
    obtain ⟨cv2, heq⟩ := runFields_spec p fs2 (m || anyChecked p (matchLeaf p) (p.matchesKey k) v)
      (l || anyChecked p (lessLeaf p) (p.matchesKey k) v) (c + 1 + 1) (p.matchesKey k) rest
      (by omega)
    refine ⟨cv2, ?_⟩
    rw [heq]
    have hcnt : c + 1 + 1 + 2 * fs2.length = c + 2 * (fs2.length + 1) := by omega
    simp only [anyCheckedFields, AuFields.length, Bool.or_assoc, hcnt]
end

/-- C3 counterexample: with key pattern "k" and uint pattern 5, the record
whose matched key holds the nested object (with key a) containing the
scalar 5 does not match, although the scalar lies inside the subtree
rooted at the value under the matched key and matches the pattern;
the same scalar nested in an array under the matched key does match. -/
theorem grep_nested_object_cex :
    (grepVal { keyPattern := some "k", uintPattern := some 5 }
        (.obj (.cons "k" (.obj (.cons "a" (.uint 5) .nil)) .nil))).matched = false ∧
    (grepVal { keyPattern := some "k", uintPattern := some 5 }
        (.obj (.cons "k" (.arr (.cons (.uint 5) .nil)) .nil))).matched = true := by
  decide

/-- C3 amended: the matched flag is set exactly on the declaratively
checked scalars: check_values_here propagates unchanged into nested
arrays, but entering an object always resets it, and inside an object a
value is checked exactly when its own key matches the key pattern (with no
key pattern every key matches); the flag at the root is the negation of
requiresKeyMatch. -/
theorem grep_match_flag_characterization (p : Pat) (v : AuVal) :
    (grepVal p v).matched = anyChecked p (matchLeaf p) (!p.requiresKeyMatch) v := by
  unfold grepVal
  rw [runVal_spec p v _ (by simp [GState.isKey])]
  simp [GState.topCheck]

/-- C2 counterexample: with an integer query (int pattern 10) and no key
pattern, the record holding the checked unsigned value 3 has 3 strictly
below the query's low bound 10, yet the record-precedes-pattern flag stays
false: the handler compares a value only against the pattern of the
value's own kind. -/
theorem grep_less_cross_kind_cex :
    (grepVal { intPattern := some 10 } (.uint 3)).less = false ∧
    anyChecked { intPattern := some 10 } (fun w => match w with
      | .uint _ => true
      | _ => false) (!Pat.requiresKeyMatch { intPattern := some 10 }) (.uint 3) = true ∧
    ((3 : Int) < 10) := by
  refine ⟨by decide, by decide, by decide⟩

/-- C2 amended: the record-precedes-pattern flag is set exactly when some
checked scalar is strictly below the pattern of its own kind: an int value
below the int pattern, a uint value below the uint pattern, or a time
value before the start of the timestamp range (checked positions as in the
matched-flag characterization). -/
theorem grep_less_flag_characterization (p : Pat) (v : AuVal) :
    (grepVal p v).less = anyChecked p (lessLeaf p) (!p.requiresKeyMatch) v := by
  unfold grepVal
  rw [runVal_spec p v _ (by simp [GState.isKey])]
  simp [GState.topCheck]

/-! ## Claim C1: the bisect loop -/

/-- Soundness half of C1: a run of the loop that ends in the linear scan
reached, from its starting window, by bisection steps alone, a window of
at most SCAN_THRESHOLD bytes, and the scan's seek target and suffix budget
are the claimed ones for that window. -/
theorem doBisectLoop_scan (env : BisectEnv) (fuel : Nat) :
    ∀ s e q suf, doBisectLoop env fuel s e = .scan q suf →
      ∃ w : Nat × Nat, Relation.ReflTransGen (BisectStep env) (s, e) w ∧
        w.1 < w.2 ∧ w.2 - w.1 ≤ SCAN_THRESHOLD ∧
        q = (if w.1 > PREFIX_AMOUNT then w.1 - PREFIX_AMOUNT else 0) ∧
        suf = SUFFIX_AMOUNT := by
  induction fuel with
  | zero =>
    intro s e q suf h
    simp [doBisectLoop] at h
  | succ fuel ih =>
    intro s e q suf h
    rw [doBisectLoop] at h
    split at h
    · rename_i h1
      split at h
      · rename_i h2
        simp only [BisectOutcome.scan.injEq] at h
        exact ⟨(s, e), .refl, h1, h2, h.1.symm, h.2.symm⟩
      · rename_i h2
        cases hsync : env.sync (s + (e - s) / 2) with
        | none => rw [hsync] at h; simp at h
        | some sor =>
          rw [hsync] at h
          simp only at h
          cases hprec : env.precedes sor with
          | none => rw [hprec] at h; simp at h
          | some b =>
            rw [hprec] at h
            simp only at h
            cases b with
            | true =>
              rw [if_pos rfl] at h
              obtain ⟨w, hr, hlt, hle, hq, hsuf⟩ := ih sor e q suf h
              exact ⟨w, Relation.ReflTransGen.head
                ⟨h1, by omega, sor, true, hsync, hprec, by simp⟩ hr, hlt, hle, hq, hsuf⟩
            | false =>
              rw [if_neg (by simp)] at h
              obtain ⟨w, hr, hlt, hle, hq, hsuf⟩ := ih s sor q suf h
              exact ⟨w, Relation.ReflTransGen.head
                ⟨h1, by omega, sor, false, hsync, hprec, by simp⟩ hr, hlt, hle, hq, hsuf⟩
    · simp at h

/-- Completeness half of C1: once bisection steps have brought the window
to at most SCAN_THRESHOLD bytes, the loop (with enough fuel) ends in the
linear scan at the claimed seek target and suffix budget. -/
theorem bisect_reach_scan (env : BisectEnv) (v w : Nat × Nat)
    (hr : Relation.ReflTransGen (BisectStep env) v w)
    (h1 : w.1 < w.2) (h2 : w.2 - w.1 ≤ SCAN_THRESHOLD) :
    ∃ fuel, doBisectLoop env fuel v.1 v.2 =
      .scan (if w.1 > PREFIX_AMOUNT then w.1 - PREFIX_AMOUNT else 0) SUFFIX_AMOUNT := by
  induction hr using Relation.ReflTransGen.head_induction_on with
  | refl =>
    refine ⟨1, ?_⟩
    rw [doBisectLoop, if_pos h1, if_pos h2]
  | head hstep hrest ih =>
    obtain ⟨fuel, hf⟩ := ih
    refine ⟨fuel + 1, ?_⟩
    obtain ⟨hlt, hgap, sor, b, hsync, hprec, hw⟩ := hstep
    rw [doBisectLoop, if_pos hlt, if_neg (by omega)]
    rw [hsync]
    simp only
    rw [hprec]
    simp only
    cases b with
    | true =>
      rw [if_pos rfl]
      simp at hw
      rw [hw] at hf
      exact hf
    | false =>
      rw [if_neg (by simp)]
      simp at hw
      rw [hw] at hf
      exact hf

/-- C1: the bisect search maintains a window starting at [0, end_pos);
while the window is wider than SCAN_THRESHOLD each iteration resyncs from
the midpoint start + (end - start) / 2, decodes one record beginning at
sor, and moves start up to sor when the record strictly precedes the query
and end down to sor otherwise; and the run ends in the linear grep exactly
when such iterations reach a window of at most SCAN_THRESHOLD bytes, the
grep being seeded at start - PREFIX_AMOUNT clamped to 0 with scan-suffix
budget SCAN_THRESHOLD + PREFIX_AMOUNT + 266 KiB. -/
theorem bisect_window_evolution (env : BisectEnv) (q suf : Nat) :
    (∃ fuel, doBisect env fuel = .scan q suf) ↔
      ∃ w : Nat × Nat, Relation.ReflTransGen (BisectStep env) (0, env.endPos) w ∧
        w.1 < w.2 ∧ w.2 - w.1 ≤ SCAN_THRESHOLD ∧
        q = (if w.1 > PREFIX_AMOUNT then w.1 - PREFIX_AMOUNT else 0) ∧
        suf = SUFFIX_AMOUNT := by
  constructor
  · rintro ⟨fuel, h⟩
    exact doBisectLoop_scan env fuel 0 env.endPos q suf h
  · rintro ⟨w, hr, h1, h2, hq, hsuf⟩
    obtain ⟨fuel, hf⟩ := bisect_reach_scan env (0, env.endPos) w hr h1 h2
    subst hq hsuf
    exact ⟨fuel, hf⟩

/-- C9: the JSON string 1970-01-01T00:00:00.123456 round-trips: json2au's
tryTime recognizes the 26-character timestamp and encodes the time value
123456000 nanoseconds since the epoch; the wire codec for a time value
carries that count faithfully; and the JSON sink renders it back as the
identical quoted timestamp string. -/
theorem time_string_round_trip :
    tryTime "1970-01-01T00:00:00.123456" = some 123456000 ∧
    decodeTimeValue (encodeTimeValue 123456000) = some 123456000 ∧
    renderTimeJson 123456000 = "\"1970-01-01T00:00:00.123456\"" := by
  refine ⟨by decide, by decide, by decide⟩

/-! ## Claims C6, C7, C8: lemmas about the byte source -/

theorem compact_file (s : FbsState) : (compact s).file = s.file := by
  unfold compact
  split <;> rfl

theorem compact_fileOff (s : FbsState) : (compact s).fileOff = s.fileOff := by
  unfold compact
  split <;> rfl

theorem compact_pos (s : FbsState) : (compact s).pos = s.pos := by
  unfold compact
  split <;> rfl

theorem compact_pin (s : FbsState) : (compact s).pin = s.pin := by
  unfold compact
  split <;> rfl

theorem compact_ioCount (s : FbsState) : (compact s).ioCount = s.ioCount := by
  unfold compact
  split <;> rfl

theorem compact_initBufSize (s : FbsState) : (compact s).initBufSize = s.initBufSize := by
  unfold compact
  split <;> rfl

theorem compact_bufSize (s : FbsState) : (compact s).bufSize = s.bufSize := by
  unfold compact
  split <;> rfl

theorem compact_cur_eq (s : FbsState) :
    (compact s).cur = if s.cur > histSz s then histSz s else s.cur := by
  unfold compact
  split <;> simp_all

theorem compact_avail (s : FbsState) (h : s.cur ≤ s.buf.length) :
    (compact s).buf.length - (compact s).cur = s.buf.length - s.cur ∧
      (compact s).cur ≤ (compact s).buf.length := by
  unfold compact
  split
  · rename_i hgt
    constructor
    · simp only [List.length_drop]
      omega
    · simp only [List.length_drop]
      omega
  · exact ⟨rfl, h⟩

theorem grow_file (s : FbsState) : (grow s).file = s.file := by
  unfold grow
  split <;> rfl

theorem grow_fileOff (s : FbsState) : (grow s).fileOff = s.fileOff := by
  unfold grow
  split <;> rfl

theorem grow_pos (s : FbsState) : (grow s).pos = s.pos := by
  unfold grow
  split <;> rfl

theorem grow_pin (s : FbsState) : (grow s).pin = s.pin := by
  unfold grow
  split <;> rfl

theorem grow_cur (s : FbsState) : (grow s).cur = s.cur := by
  unfold grow
  split <;> rfl

theorem grow_buf (s : FbsState) : (grow s).buf = s.buf := by
  unfold grow
  split <;> rfl

theorem grow_ioCount (s : FbsState) : (grow s).ioCount = s.ioCount := by
  unfold grow
  split <;> rfl

theorem grow_initBufSize (s : FbsState) : (grow s).initBufSize = s.initBufSize := by
  unfold grow
  split <;> rfl

/-- After growth there is free space, provided the increment is positive
and the buffer was not overfull. -/
theorem grow_free (s : FbsState) (h1 : 0 < s.initBufSize) (h2 : s.buf.length ≤ s.bufSize) :
    0 < (grow s).bufSize - (grow s).buf.length := by
  unfold grow
  split
  · show 0 < s.bufSize + s.initBufSize - s.buf.length
    omega
  · rename_i hz
    show 0 < s.bufSize - s.buf.length
    omega

/-- The PinCovered invariant survives compaction: the kept history is at
least the pin's distance behind the position. -/
theorem compact_pinCovered (s : FbsState) (h : PinCovered s) : PinCovered (compact s) := by
  intro p hp
  rw [compact_pin] at hp
  rw [compact_pos, compact_cur_eq]
  split
  · unfold histSz
    simp only [hp]
    split
    · exact le_trans (Nat.le_sub_of_add_le (by omega)) (le_max_right _ _)
    · rename_i hnp
      omega
  · exact h p hp

theorem readFb_file (s : FbsState) : (readFb s).2.file = s.file := by
  simp only [readFb]
  split <;> simp [grow_file, compact_file]

theorem readFb_pos (s : FbsState) : (readFb s).2.pos = s.pos := by
  simp only [readFb]
  split <;> simp [grow_pos, compact_pos]

theorem readFb_pin (s : FbsState) : (readFb s).2.pin = s.pin := by
  simp only [readFb]
  split <;> simp [grow_pin, compact_pin]

theorem readFb_initBufSize (s : FbsState) : (readFb s).2.initBufSize = s.initBufSize := by
  simp only [readFb]
  split <;> simp [grow_initBufSize, compact_initBufSize]

theorem readFb_cur (s : FbsState) : (readFb s).2.cur = (compact s).cur := by
  simp only [readFb]
  split <;> simp [grow_cur]

/-- What claim C7 calls compaction retention: an internal read keeps at
least min(cur, max(MIN_HIST, pos - pin)) bytes of consumed history in
front of the cursor. -/
theorem readFb_retention (s : FbsState) : min s.cur (histSz s) ≤ (readFb s).2.cur := by
  rw [readFb_cur, compact_cur_eq]
  split <;> omega

theorem readFb_pinCovered (s : FbsState) (h : PinCovered s) : PinCovered (readFb s).2 := by
  intro p hp
  rw [readFb_pin] at hp
  rw [readFb_pos, readFb_cur]
  have hcp := compact_pinCovered s h p (by rw [compact_pin]; exact hp)
  rw [compact_pos] at hcp
  exact hcp

theorem compact_consistent (s : FbsState) (hc : Consistent s) : Consistent (compact s) := by
  obtain ⟨h1, h2, h3, h4, h5, h6, h7⟩ := hc
  unfold compact
  split
  · rename_i hgt
    refine ⟨?_, ?_, ?_, ?_, h5, h6, ?_⟩
    · simp only [List.length_drop]
      omega
    · show histSz s ≤ s.pos
      omega
    · simp only [List.length_drop]
      omega
    · show s.buf.drop (s.cur - histSz s) =
        (s.file.drop (s.pos - histSz s)).take (s.buf.drop (s.cur - histSz s)).length
      rw [List.length_drop]
      conv_lhs => rw [h4]
      rw [List.drop_take, List.drop_drop]
      congr 2
      omega
    · simp only [List.length_drop]
      omega
  · exact ⟨h1, h2, h3, h4, h5, h6, h7⟩

theorem grow_consistent (s : FbsState) (hc : Consistent s) : Consistent (grow s) := by
  obtain ⟨h1, h2, h3, h4, h5, h6, h7⟩ := hc
  unfold grow
  split
  · exact ⟨h1, h2, h3, h4, h5, h6, by show s.buf.length ≤ s.bufSize + s.initBufSize; omega⟩
  · exact ⟨h1, h2, h3, h4, h5, h6, h7⟩

/-- Appending a read of n bytes at the stream offset keeps the state
consistent. -/
theorem consistent_append (t : FbsState) (hc : Consistent t) (n : Nat)
    (hn : n ≤ t.file.length - t.fileOff) (hn2 : t.buf.length + n ≤ t.bufSize) :
    Consistent { t with
                 ioCount := t.ioCount + 1
                 buf := t.buf ++ (t.file.drop t.fileOff).take n
                 fileOff := t.fileOff + n } := by
  obtain ⟨h1, h2, h3, h4, h5, h6, h7⟩ := hc
  have hlen : ((t.file.drop t.fileOff).take n).length = n := by
    rw [List.length_take, List.length_drop]
    omega
  refine ⟨?_, h2, ?_, ?_, ?_, h6, ?_⟩
  · show t.cur ≤ (t.buf ++ (t.file.drop t.fileOff).take n).length
    rw [List.length_append, hlen]
    omega
  · show t.fileOff + n = t.pos - t.cur + (t.buf ++ (t.file.drop t.fileOff).take n).length
    rw [List.length_append, hlen]
    omega
  · show t.buf ++ (t.file.drop t.fileOff).take n =
      (t.file.drop (t.pos - t.cur)).take (t.buf ++ (t.file.drop t.fileOff).take n).length
    rw [List.length_append, hlen]
    have hdd : (t.file.drop (t.pos - t.cur)).drop t.buf.length = t.file.drop t.fileOff := by
      rw [List.drop_drop]
      congr 1
      omega
    rw [List.take_add, hdd, ← h4]
  · show t.fileOff + n ≤ t.file.length
    omega
  · show (t.buf ++ (t.file.drop t.fileOff).take n).length ≤ t.bufSize
    rw [List.length_append, hlen]
    omega

theorem readFb_consistent (s : FbsState) (hc : Consistent s) : Consistent (readFb s).2 := by
  obtain ⟨g1, g2, g3, g4, g5, g6, g7⟩ := grow_consistent _ (compact_consistent s hc)
  simp only [readFb]
  split
  · exact ⟨g1, g2, g3, g4, g5, g6, g7⟩
  · rename_i hn
    refine consistent_append _ ⟨g1, g2, g3, g4, g5, g6, g7⟩ _ (min_le_right _ _) ?_
    have hl := min_le_left ((grow (compact s)).bufSize - (grow (compact s)).buf.length)
      ((grow (compact s)).file.length - (grow (compact s)).fileOff)
    omega

/-- A successful read strictly advances the stream offset, within the
file. -/
theorem readFb_true_fileOff (s s1 : FbsState) (h : readFb s = (true, s1)) :
    s.fileOff < s1.fileOff ∧ s1.fileOff ≤ s.file.length := by
  simp only [readFb] at h
  split at h
  · simp at h
  · rename_i hn
    simp only [Prod.mk.injEq, true_and] at h
    subst h
    simp only [grow_fileOff, compact_fileOff, grow_file, compact_file] at hn ⊢
    omega

/-- A successful read strictly increases the available bytes. -/
theorem readFb_true_avail (s s1 : FbsState) (hcur : s.cur ≤ s.buf.length)
    (h : readFb s = (true, s1)) :
    s.buf.length - s.cur < s1.buf.length - s1.cur ∧ s1.cur ≤ s1.buf.length := by
  have hca := compact_avail s hcur
  simp only [readFb] at h
  split at h
  · simp at h
  · rename_i hn
    simp only [Prod.mk.injEq, true_and] at h
    subst h
    simp only [List.length_append, List.length_take, List.length_drop, grow_buf, grow_cur,
      grow_file, grow_fileOff] at hn ⊢
    omega

/-- A failed read leaves the offset, position, file and available count in
place; for a consistent state it means the offset was already at end of
file. -/
theorem readFb_false_state (s s1 : FbsState) (hc : Consistent s)
    (h : readFb s = (false, s1)) :
    s.fileOff = s.file.length ∧ s1.fileOff = s.fileOff ∧ s1.pos = s.pos ∧
      s1.file = s.file ∧ s1.buf.length - s1.cur = s.buf.length - s.cur ∧ Consistent s1 := by
  obtain ⟨c1, c2, c3, c4, c5, c6, c7⟩ := compact_consistent s hc
  obtain ⟨g1, g2, g3, g4, g5, g6, g7⟩ :=
    grow_consistent _ ⟨c1, c2, c3, c4, c5, c6, c7⟩
  have hfree := grow_free (compact s) c6 c7
  simp only [readFb] at h
  split at h
  · rename_i hn
    simp only [Prod.mk.injEq, true_and] at h
    subst h
    have hrem : (grow (compact s)).file.length - (grow (compact s)).fileOff = 0 := by omega
    rw [grow_file, compact_file, grow_fileOff, compact_fileOff] at hrem
    have h5 := hc.2.2.2.2.1
    refine ⟨by omega, ?_, ?_, ?_, ?_, ⟨g1, g2, g3, g4, g5, g6, g7⟩⟩
    · show (grow (compact s)).fileOff = s.fileOff
      rw [grow_fileOff, compact_fileOff]
    · show (grow (compact s)).pos = s.pos
      rw [grow_pos, compact_pos]
    · show (grow (compact s)).file = s.file
      rw [grow_file, compact_file]
    · show (grow (compact s)).buf.length - (grow (compact s)).cur = s.buf.length - s.cur
      rw [grow_buf, grow_cur]
      exact (compact_avail s hc.1).1
  · simp at h

theorem fillTo_state (want : Nat) (s : FbsState) :
    (fillTo want s).2.file = s.file ∧ (fillTo want s).2.pos = s.pos ∧
      (fillTo want s).2.pin = s.pin ∧ (fillTo want s).2.initBufSize = s.initBufSize := by
  refine fillTo.induct want
    (fun x => (fillTo want x).2.file = x.file ∧ (fillTo want x).2.pos = x.pos ∧
      (fillTo want x).2.pin = x.pin ∧ (fillTo want x).2.initBufSize = x.initBufSize)
    ?_ ?_ ?_ s
  · intro x h
    rw [fillTo, if_pos h]
    exact ⟨rfl, rfl, rfl, rfl⟩
  · intro x h s1 hr
    have hf := readFb_file x
    have hp := readFb_pos x
    have hpin := readFb_pin x
    have hi := readFb_initBufSize x
    rw [hr] at hf hp hpin hi
    rw [fillTo, if_neg h, hr]
    exact ⟨hf, hp, hpin, hi⟩
  · intro x h s1 hr ih
    have hf := readFb_file x
    have hp := readFb_pos x
    have hpin := readFb_pin x
    have hi := readFb_initBufSize x
    rw [hr] at hf hp hpin hi
    rw [fillTo, if_neg h, hr]
    exact ⟨ih.1.trans hf, ih.2.1.trans hp, ih.2.2.1.trans hpin, ih.2.2.2.trans hi⟩

theorem fillTo_pinCovered (want : Nat) (s : FbsState) (h0 : PinCovered s) :
    PinCovered (fillTo want s).2 := by
  refine fillTo.induct want (fun x => PinCovered x → PinCovered (fillTo want x).2)
    ?_ ?_ ?_ s h0
  · intro x h hx
    rw [fillTo, if_pos h]
    exact hx
  · intro x h s1 hr hx
    have hpc := readFb_pinCovered x hx
    rw [hr] at hpc
    rw [fillTo, if_neg h, hr]
    exact hpc
  · intro x h s1 hr ih hx
    have hpc := readFb_pinCovered x hx
    rw [hr] at hpc
    rw [fillTo, if_neg h, hr]
    exact ih hpc

theorem fillTo_consistent (want : Nat) (s : FbsState) (h0 : Consistent s) :
    Consistent (fillTo want s).2 := by
  refine fillTo.induct want (fun x => Consistent x → Consistent (fillTo want x).2)
    ?_ ?_ ?_ s h0
  · intro x h hx
    rw [fillTo, if_pos h]
    exact hx
  · intro x h s1 hr hx
    have hcc := readFb_consistent x hx
    rw [hr] at hcc
    rw [fillTo, if_neg h, hr]
    exact hcc
  · intro x h s1 hr ih hx
    have hcc := readFb_consistent x hx
    rw [hr] at hcc
    rw [fillTo, if_neg h, hr]
    exact ih hcc

theorem fillTo_true_avail (want : Nat) (s s2 : FbsState)
    (h0 : fillTo want s = (true, s2)) : want ≤ s2.buf.length - s2.cur := by
  refine fillTo.induct want
    (fun x => fillTo want x = (true, s2) → want ≤ s2.buf.length - s2.cur)
    ?_ ?_ ?_ s h0
  · intro x h hx
    rw [fillTo, if_pos h] at hx
    simp only [Prod.mk.injEq, true_and] at hx
    subst hx
    exact h
  · intro x h s1 hr hx
    rw [fillTo, if_neg h, hr] at hx
    simp at hx
  · intro x h s1 hr ih hx
    rw [fillTo, if_neg h, hr] at hx
    exact ih hx

/-- A failed fill means the file has fewer than `want` bytes at or after
the current position. -/
theorem fillTo_false_rem (want : Nat) (s s2 : FbsState) (h0 : Consistent s)
    (h1 : fillTo want s = (false, s2)) : s.file.length - s.pos < want := by
  refine fillTo.induct want
    (fun x => Consistent x → fillTo want x = (false, s2) → x.file.length - x.pos < want)
    ?_ ?_ ?_ s h0 h1
  · intro x h hx hy
    rw [fillTo, if_pos h] at hy
    simp at hy
  · intro x h s1 hr hx hy
    obtain ⟨e1, e2, e3, e4, e5, e6⟩ := readFb_false_state x s1 hx hr
    obtain ⟨c1, c2, c3, c4, c5, c6, c7⟩ := hx
    omega
  · intro x h s1 hr ih hx hy
    rw [fillTo, if_neg h, hr] at hy
    have hcc := readFb_consistent x hx
    have hf := readFb_file x
    have hp := readFb_pos x
    rw [hr] at hcc hf hp
    have hrem := ih hcc hy
    rw [hf, hp] at hrem
    exact hrem

/-- Compaction does nothing when the cursor has not passed the history
size. -/
theorem compact_noop (s : FbsState) (h : s.cur ≤ histSz s) : compact s = s := by
  unfold compact
  rw [if_neg (by omega)]

/-- The in-history branch of seek: the cursor and position move back, and
nothing else changes. -/
theorem seekB_inHist (s : FbsState) (abspos : Nat) (h1 : abspos < s.pos)
    (h2 : s.pos - abspos ≤ s.cur) :
    seekB abspos s = some { s with cur := s.cur - (s.pos - abspos), pos := abspos } := by
  unfold seekB
  rw [if_pos ⟨h1, h2⟩]

/-- The reseek branch of seek: on success the pin is dropped, the position
is the target, and the buffer was refilled from the underlying stream at
the target (at least one underlying operation happened). -/
theorem seekB_reseek (s : FbsState) (abspos : Nat)
    (hno : ¬(abspos < s.pos ∧ s.pos - abspos ≤ s.cur)) (s2 : FbsState)
    (h : seekB abspos s = some s2) :
    s2.pin = none ∧ s2.pos = abspos ∧ s2.cur = 0 ∧ s2.file = s.file ∧
      s2.fileOff = abspos + s2.buf.length ∧
      s2.buf = (s.file.drop abspos).take s2.buf.length ∧ s2.buf ≠ [] ∧
      s.ioCount < s2.ioCount := by
  simp only [seekB] at h
  rw [if_neg hno] at h
  split at h
  · simp at h
  · rename_i s2x hmatch
    simp only [Option.some.injEq] at h
    subst h
    simp only [readFb] at hmatch
    rw [compact_noop _ (Nat.zero_le _)] at hmatch
    split at hmatch
    · simp at hmatch
    · rename_i hn
      simp only [Prod.mk.injEq, true_and] at hmatch
      subst hmatch
      have hrem := min_le_right
        ((grow { s with
          fileOff := abspos
          ioCount := s.ioCount + 1
          buf := []
          cur := 0
          pos := abspos
          pin := none }).bufSize - (grow { s with
          fileOff := abspos
          ioCount := s.ioCount + 1
          buf := []
          cur := 0
          pos := abspos
          pin := none }).buf.length)
        ((grow { s with
          fileOff := abspos
          ioCount := s.ioCount + 1
          buf := []
          cur := 0
          pos := abspos
          pin := none }).file.length - (grow { s with
          fileOff := abspos
          ioCount := s.ioCount + 1
          buf := []
          cur := 0
          pos := abspos
          pin := none }).fileOff)
      simp only [grow_file, grow_fileOff, grow_buf, grow_cur, grow_pos, grow_pin,
        grow_ioCount, List.nil_append] at hrem hn ⊢
      have hlen : ∀ k, k ≤ s.file.length - abspos →
          ((s.file.drop abspos).take k).length = k := by
        intro k hk
        rw [List.length_take, List.length_drop]
        omega
      refine ⟨by trivial, by trivial, by trivial, by trivial, ?_, ?_, ?_, ?_⟩
      · rw [hlen _ hrem]
      · rw [hlen _ hrem]
      · intro hnil
        have := congrArg List.length hnil
        rw [hlen _ hrem] at this
        simp at this
        omega
      · omega

/-- C6: seek within retained history moves only the cursor and the
tracked position, leaving the pin, the buffer, the stream offset and the
underlying stream untouched; outside retained history (at or past the
current position, or before the buffered history) a successful seek
reseeks the underlying stream to the target, drops the pin, and refills
the buffer from the target position. -/
theorem fbs_seek_branches (s : FbsState) (abspos : Nat) :
    (s.pos - s.cur ≤ abspos → abspos < s.pos →
      seekB abspos s = some { s with cur := s.cur - (s.pos - abspos), pos := abspos }) ∧
    (s.pos ≤ abspos ∨ abspos < s.pos - s.cur →
      ∀ s2, seekB abspos s = some s2 →
        s2.pin = none ∧ s2.pos = abspos ∧ s2.cur = 0 ∧ s2.file = s.file ∧
        s2.fileOff = abspos + s2.buf.length ∧
        s2.buf = (s.file.drop abspos).take s2.buf.length ∧ s2.buf ≠ [] ∧
        s.ioCount < s2.ioCount) := by
  constructor
  · intro hge hlt
    exact seekB_inHist s abspos hlt (by omega)
  · intro hcase s2 h
    refine seekB_reseek s abspos ?_ s2 h
    rintro ⟨hx, hy⟩
    omega

/-! Claim C7: consumer operations never touch the pin and keep it covered
by buffered history. -/

theorem nextB_state (s : FbsState) :
    (nextB s).2.pin = s.pin ∧ (PinCovered s → PinCovered (nextB s).2) := by
  have hst := fillTo_state 1 s
  have hpc := fillTo_pinCovered 1 s
  unfold nextB
  cases hf : fillTo 1 s with
  | mk b s1 =>
    rw [hf] at hst hpc
    cases b
    · exact ⟨hst.2.2.1, fun h => hpc h⟩
    · refine ⟨hst.2.2.1, fun h => ?_⟩
      intro p hp
      have hs1 : s1.pos - p ≤ s1.cur := hpc h p hp
      show s1.pos + 1 - p ≤ s1.cur + 1
      omega

theorem peekB_state (s : FbsState) :
    (peekB s).2.pin = s.pin ∧ (PinCovered s → PinCovered (peekB s).2) := by
  have hst := fillTo_state 1 s
  have hpc := fillTo_pinCovered 1 s
  unfold peekB
  cases hf : fillTo 1 s with
  | mk b s1 =>
    rw [hf] at hst hpc
    cases b
    · exact ⟨hst.2.2.1, fun h => hpc h⟩
    · exact ⟨hst.2.2.1, fun h => hpc h⟩

theorem readFunc_state (len : Nat) (s s1 : FbsState) (h : readFunc len s = some s1) :
    s1.pin = s.pin ∧ (PinCovered s → PinCovered s1) := by
  refine readFunc.induct
    (fun len x => readFunc len x = some s1 → s1.pin = x.pin ∧ (PinCovered x → PinCovered s1))
    ?_ ?_ ?_ ?_ len s h
  · intro x hx
    rw [readFunc] at hx
    simp only [Option.some.injEq] at hx
    subst hx
    exact ⟨rfl, fun hc => hc⟩
  · intro n x smid hf hx
    rw [readFunc, hf] at hx
    simp at hx
  · intro n x smid hf first hfz hx
    rw [readFunc, hf] at hx
    simp only [if_pos hfz] at hx
    simp at hx
  · intro n x smid hf first hfz ih hx
    rw [readFunc, hf] at hx
    simp only [if_neg hfz] at hx
    have hst := fillTo_state 1 x
    have hpc := fillTo_pinCovered 1 x
    rw [hf] at hst hpc
    have hnext := ih hx
    refine ⟨hnext.1.trans hst.2.2.1, fun hc => ?_⟩
    refine hnext.2 ?_
    intro p hp
    have hs1 : smid.pos - p ≤ smid.cur := hpc hc p hp
    show smid.pos + first - p ≤ smid.cur + first
    omega

theorem applyOp_state (o : Op) (s s1 : FbsState) (h : applyOp o s = some s1) :
    s1.pin = s.pin ∧ (PinCovered s → PinCovered s1) := by
  cases o with
  | next =>
    simp only [applyOp, Option.some.injEq] at h
    subst h
    exact nextB_state s
  | peek =>
    simp only [applyOp, Option.some.injEq] at h
    subst h
    exact peekB_state s
  | readBytes n =>
    exact readFunc_state n s s1 h

theorem runOps_state (ops : List Op) (s s1 : FbsState) (h : runOps ops s = some s1) :
    s1.pin = s.pin ∧ (PinCovered s → PinCovered s1) := by
  induction ops generalizing s with
  | nil =>
    simp only [runOps, Option.some.injEq] at h
    subst h
    exact ⟨rfl, fun hx => hx⟩
  | cons o os ih =>
    simp only [runOps] at h
    cases ha : applyOp o s with
    | none =>
      rw [ha] at h
      simp at h
    | some smid =>
      rw [ha] at h
      have h1 := applyOp_state o s smid ha
      have h2 := ih smid h
      exact ⟨h2.1.trans h1.1, fun hx => h2.2 (h1.2 hx)⟩

/-- C7 (amended): every internal read keeps at least
min(cur, max(MIN_HIST, pos - pin)) bytes of consumed history in front of
the cursor; consequently, after set_pin(P) at a position not before the
buffered start, any sequence of next, peek and read_exact operations
leaves the pin covered, and once at least one byte at or past P has been
consumed, seek(P) stays inside the buffer: it moves only the cursor and
position, touching neither the pin, the buffer, nor the underlying
source. -/
theorem pin_history_preservation :
    (∀ s : FbsState, min s.cur (histSz s) ≤ (readFb s).2.cur) ∧
    (∀ (s : FbsState) (P : Nat) (ops : List Op) (s1 : FbsState),
      s.pos - s.cur ≤ P → runOps ops (setPin P s) = some s1 → P < s1.pos →
      seekB P s1 = some { s1 with cur := s1.cur - (s1.pos - P), pos := P }) := by
  constructor
  · exact readFb_retention
  · intro s P ops s1 hP hrun hPlt
    have hst := runOps_state ops (setPin P s) s1 hrun
    have hpin : s1.pin = some P := hst.1
    have hcov : PinCovered s1 := by
      refine hst.2 ?_
      intro p hp
      simp only [setPin, Option.some.injEq] at hp
      subst hp
      show s.pos - P ≤ s.cur
      omega
    have hc := hcov P hpin
    exact seekB_inHist s1 P hPlt (by omega)

/-- C7 counterexample: with the pin set at the current position and no
operations in between, seek to the pinned position takes the reseek
branch: it drops the pin and performs underlying operations, against the
claim that the seek succeeds without touching the underlying source. -/
theorem pin_seek_at_pos_cex :
    (setPin 1 fbsAfterOne).pos = 1 ∧
    (setPin 1 fbsAfterOne).ioCount = 1 ∧
    Option.map FbsState.pin (seekB 1 (setPin 1 fbsAfterOne)) = some none ∧
    Option.map FbsState.ioCount (seekB 1 (setPin 1 fbsAfterOne)) = some 3 := by
  refine ⟨rfl, rfl, by decide, by decide⟩

/-! Claim C8: scanTo finds the first occurrence. -/

theorem firstOccur_some {α : Type} [DecidableEq α] (hay needle : List α) (i : Nat)
    (h : firstOccur hay needle = some i) :
    i + needle.length ≤ hay.length ∧ (hay.drop i).take needle.length = needle ∧
      ∀ j, j < i → (hay.drop j).take needle.length ≠ needle := by
  induction hay generalizing i with
  | nil =>
    rw [firstOccur] at h
    split at h
    · rename_i hlen
      split at h
      · rename_i heq
        simp only [Option.some.injEq] at h
        subst h
        exact ⟨by simpa using hlen, heq, by omega⟩
      · simp at h
    · simp at h
  | cons a t ih =>
    rw [firstOccur] at h
    split at h
    · rename_i hlen
      split at h
      · rename_i heq
        simp only [Option.some.injEq] at h
        subst h
        exact ⟨by simpa using hlen, heq, by omega⟩
      · rename_i hne
        cases hfo : firstOccur t needle with
        | none =>
          rw [hfo] at h
          simp at h
        | some i0 =>
          rw [hfo] at h
          simp only [Option.map_some', Option.some.injEq] at h
          subst h
          obtain ⟨g1, g2, g3⟩ := ih i0 hfo
          refine ⟨by simp only [List.length_cons]; omega,
            by simpa using g2, ?_⟩
          intro j hj
          cases j with
          | zero => simpa using hne
          | succ j0 =>
            intro hcc
            exact g3 j0 (by omega) (by simpa using hcc)
    · simp at h

theorem firstOccur_none {α : Type} [DecidableEq α] (hay needle : List α)
    (h : firstOccur hay needle = none) :
    ∀ j, j + needle.length ≤ hay.length → (hay.drop j).take needle.length ≠ needle := by
  induction hay with
  | nil =>
    rw [firstOccur] at h
    split at h
    · rename_i hlen
      split at h
      · simp at h
      · rename_i hne
        intro j hj
        simpa using hne
    · rename_i hlen
      intro j hj hcc
      simp only [List.length_nil] at hlen hj
      omega
  | cons a t ih =>
    rw [firstOccur] at h
    split at h
    · rename_i hlen
      split at h
      · simp at h
      · rename_i hne
        cases hfo : firstOccur t needle with
        | some i0 =>
          rw [hfo] at h
          simp at h
        | none =>
          intro j hj
          cases j with
          | zero => simpa using hne
          | succ j0 =>
            intro hcc
            refine ih hfo j0 ?_ (by simpa using hcc)
            simp only [List.length_cons] at hj
            omega
    · rename_i hlen
      intro j hj hcc
      simp only [List.length_cons] at hlen hj
      omega

/-- For a consistent state the bytes past the cursor are the file slice
from the current position. -/
theorem window_eq (s : FbsState) (hc : Consistent s) :
    s.buf.drop s.cur = (s.file.drop s.pos).take (s.buf.length - s.cur) := by
  obtain ⟨h1, h2, h3, h4, h5, h6, h7⟩ := hc
  conv_lhs => rw [h4]
  rw [List.drop_take, List.drop_drop]
  congr 2
  omega

/-- An in-window occurrence is exactly an occurrence in the file at the
corresponding absolute position. -/
theorem occursAt_window (s : FbsState) (needle : List Nat) (j : Nat) (hc : Consistent s)
    (hj : j + needle.length ≤ s.buf.length - s.cur) :
    ((s.buf.drop s.cur).drop j).take needle.length = needle ↔
      occursAt s.file needle (s.pos + j) := by
  have hq : s.pos + j + needle.length ≤ s.file.length := by
    obtain ⟨h1, h2, h3, h4, h5, h6, h7⟩ := hc
    omega
  rw [window_eq s hc, List.drop_take, List.drop_drop, List.take_take]
  have hmin : min needle.length (s.buf.length - s.cur - j) = needle.length := by omega
  rw [hmin]
  unfold occursAt
  exact ⟨fun h => ⟨h, hq⟩, fun h => h.1⟩

/-- Seeking forward (at or past the current position) from a consistent
state, to a target inside the file, succeeds and yields a consistent state
at the target. -/
theorem seekB_forward_consistent (s : FbsState) (abspos : Nat) (hc : Consistent s)
    (hge : s.pos ≤ abspos) (hlt : abspos < s.file.length) :
    ∃ s2, seekB abspos s = some s2 ∧ s2.pos = abspos ∧ s2.file = s.file ∧ Consistent s2 := by
  obtain ⟨h1, h2, h3, h4, h5, h6, h7⟩ := hc
  have hct : Consistent { s with
      fileOff := abspos
      ioCount := s.ioCount + 1
      buf := []
      cur := 0
      pos := abspos
      pin := none } := by
    refine ⟨?_, ?_, ?_, ?_, ?_, h6, ?_⟩
    · show (0 : Nat) ≤ ([] : List Nat).length
      simp
    · exact Nat.zero_le _
    · show abspos = abspos - 0 + ([] : List Nat).length
      simp
    · show ([] : List Nat) = (s.file.drop (abspos - 0)).take ([] : List Nat).length
      simp
    · show abspos ≤ s.file.length
      omega
    · show ([] : List Nat).length ≤ s.bufSize
      simp
  cases hR : readFb { s with
      fileOff := abspos
      ioCount := s.ioCount + 1
      buf := []
      cur := 0
      pos := abspos
      pin := none } with
  | mk b s2 =>
    cases b
    · exfalso
      obtain ⟨e1, _⟩ := readFb_false_state _ _ hct hR
      have e2 : abspos = s.file.length := e1
      omega
    · refine ⟨s2, ?_, ?_, ?_, ?_⟩
      · simp only [seekB]
        rw [if_neg (by rintro ⟨hx, hy⟩; omega)]
        rw [hR]
      · have hp := readFb_pos { s with
          fileOff := abspos
          ioCount := s.ioCount + 1
          buf := []
          cur := 0
          pos := abspos
          pin := none }
        rw [hR] at hp
        exact hp
      · have hff := readFb_file { s with
          fileOff := abspos
          ioCount := s.ioCount + 1
          buf := []
          cur := 0
          pos := abspos
          pin := none }
        rw [hR] at hff
        exact hff
      · have hcc := readFb_consistent _ hct
        rw [hR] at hcc
        exact hcc

/-- C8 (amended): over a consistent source and for a needle of at least
two bytes, scanTo advances the cursor to the first occurrence of the
needle at or after the current position and leaves it on its first byte
(found), returns false exactly when the stream ends before any occurrence
(eof covers every position at or past the start), and never throws; the
no-match step advances the cursor to limit minus (needle length - 1) and
continues, which is what the recursion embeds. -/
theorem scanTo_first_occurrence (needle : List Nat) (s : FbsState)
    (hc : Consistent s) (hl : 2 ≤ needle.length) :
    (∀ s1, scanToAux needle s = .found s1 →
       s1.file = s.file ∧ s.pos ≤ s1.pos ∧ occursAt s.file needle s1.pos ∧
       ∀ q, s.pos ≤ q → q < s1.pos → ¬occursAt s.file needle q) ∧
    (∀ s1, scanToAux needle s = .eof s1 →
       ∀ q, s.pos ≤ q → ¬occursAt s.file needle q) ∧
    scanToAux needle s ≠ .err := by
  refine scanToAux.induct needle (fun x => Consistent x →
    ((∀ s1, scanToAux needle x = .found s1 →
       s1.file = x.file ∧ x.pos ≤ s1.pos ∧ occursAt x.file needle s1.pos ∧
       ∀ q, x.pos ≤ q → q < s1.pos → ¬occursAt x.file needle q) ∧
    (∀ s1, scanToAux needle x = .eof s1 →
       ∀ q, x.pos ≤ q → ¬occursAt x.file needle q) ∧
    scanToAux needle x ≠ .err)) ?_ ?_ ?_ ?_ ?_ s hc
  · -- the stream ends before the needle fits the available bytes
    intro x s1 hf hcx
    have hrem := fillTo_false_rem needle.length x s1 hcx hf
    simp only [scanToAux, hf]
    refine ⟨?_, ?_, ?_⟩
    · intro s1x hfd
      simp at hfd
    · intro s1x heq
      intro q hq hocc
      obtain ⟨ho1, ho2⟩ := hocc
      omega
    · simp
  · -- the needle is found inside the buffered window
    intro x s1 hf off hocc hcx
    have hcs1 : Consistent s1 := by
      have hcc := fillTo_consistent needle.length x hcx
      rw [hf] at hcc
      exact hcc
    have hav : needle.length ≤ s1.buf.length - s1.cur := fillTo_true_avail _ x s1 hf
    have hstt := fillTo_state needle.length x
    rw [hf] at hstt
    have hfile1 : s1.file = x.file := hstt.1
    have hpos1 : s1.pos = x.pos := hstt.2.1
    obtain ⟨hb1, hb2, hb3⟩ := firstOccur_some _ needle off hocc
    rw [List.length_drop] at hb1
    simp only [scanToAux, hf, hocc]
    refine ⟨?_, ?_, ?_⟩
    · intro s1x hfd
      simp only [ScanResult.found.injEq] at hfd
      subst hfd
      have hoc : occursAt s1.file needle (s1.pos + off) :=
        (occursAt_window s1 needle off hcs1 (by omega)).mp hb2
      rw [hfile1, hpos1] at hoc
      refine ⟨hfile1, by show x.pos ≤ s1.pos + off; omega,
        by show occursAt x.file needle (s1.pos + off); rw [hpos1]; exact hoc, ?_⟩
      intro q hq hqlt hqo
      have hqlt2 : q < s1.pos + off := hqlt
      have hjlt : q - x.pos < off := by omega
      have hwin := (occursAt_window s1 needle (q - x.pos) hcs1 (by omega)).mpr
      rw [hfile1, hpos1] at hwin
      have hqeq : x.pos + (q - x.pos) = q := by omega
      rw [hqeq] at hwin
      exact hb3 (q - x.pos) hjlt (hwin hqo)
    · intro s1x heq
      simp at heq
    · simp
  · -- the skip's reseek cannot fail for a two-byte needle
    intro x s1 hf hnone hseek hcx
    exfalso
    have hcs1 : Consistent s1 := by
      have hcc := fillTo_consistent needle.length x hcx
      rw [hf] at hcc
      exact hcc
    have hav : needle.length ≤ s1.buf.length - s1.cur := fillTo_true_avail _ x s1 hf
    obtain ⟨c1, c2, c3, c4, c5, c6, c7⟩ := hcs1
    obtain ⟨s2, hsome, _⟩ := seekB_forward_consistent s1
      (s1.pos + (s1.buf.length - s1.cur - (needle.length - 1)))
      ⟨c1, c2, c3, c4, c5, c6, c7⟩ (by omega) (by omega)
    rw [hsome] at hseek
    simp at hseek
  · -- the progress guard never fires
    intro x s1 hf hnone s2 hseek hguard hcx
    exfalso
    have hcs1 : Consistent s1 := by
      have hcc := fillTo_consistent needle.length x hcx
      rw [hf] at hcc
      exact hcc
    have hav : needle.length ≤ s1.buf.length - s1.cur := fillTo_true_avail _ x s1 hf
    have hstt := fillTo_state needle.length x
    rw [hf] at hstt
    obtain ⟨c1, c2, c3, c4, c5, c6, c7⟩ := hcs1
    obtain ⟨s2x, hsome, hp2, hf2, _⟩ := seekB_forward_consistent s1
      (s1.pos + (s1.buf.length - s1.cur - (needle.length - 1)))
      ⟨c1, c2, c3, c4, c5, c6, c7⟩ (by omega) (by omega)
    rw [hsome] at hseek
    simp only [Option.some.injEq] at hseek
    subst hseek
    rw [hstt.1] at hf2
    rw [hf2] at hguard
    rw [hp2] at hguard
    have hpos1 : s1.pos = x.pos := hstt.2.1
    have hfile1 : s1.file = x.file := hstt.1
    have hflen : s1.file.length = x.file.length := congrArg List.length hfile1
    omega
  · -- skip ahead and continue scanning
    intro x s1 hf hnone s2 hseek hguard ih hcx
    have hcs1 : Consistent s1 := by
      have hcc := fillTo_consistent needle.length x hcx
      rw [hf] at hcc
      exact hcc
    have hav : needle.length ≤ s1.buf.length - s1.cur := fillTo_true_avail _ x s1 hf
    have hstt := fillTo_state needle.length x
    rw [hf] at hstt
    have hfile1 : s1.file = x.file := hstt.1
    have hpos1 : s1.pos = x.pos := hstt.2.1
    obtain ⟨c1, c2, c3, c4, c5, c6, c7⟩ := hcs1
    obtain ⟨s2x, hsome, hp2, hf2, hcons2⟩ := seekB_forward_consistent s1
      (s1.pos + (s1.buf.length - s1.cur - (needle.length - 1)))
      ⟨c1, c2, c3, c4, c5, c6, c7⟩ (by omega) (by omega)
    rw [hsome] at hseek
    simp only [Option.some.injEq] at hseek
    subst hseek
    have ihx := ih hcons2
    have hcover : ∀ q, x.pos ≤ q → q < s2x.pos → ¬occursAt x.file needle q := by
      intro q hq hqlt hqo
      have hjlt : q - x.pos + needle.length ≤ s1.buf.length - s1.cur := by
        rw [hp2] at hqlt
        omega
      have hwin := (occursAt_window s1 needle (q - x.pos) ⟨c1, c2, c3, c4, c5, c6, c7⟩ hjlt).mpr
      rw [hfile1, hpos1] at hwin
      have hqeq : x.pos + (q - x.pos) = q := by omega
      rw [hqeq] at hwin
      have hocc2 := hwin hqo
      exact firstOccur_none _ needle hnone (q - x.pos)
        (by rw [List.length_drop]; exact hjlt) hocc2
    have heval : scanToAux needle x = scanToAux needle s2x := by
      conv_lhs => rw [scanToAux]
      simp only [hf, hnone, hsome]
      rw [if_neg hguard]
    rw [heval]
    refine ⟨?_, ?_, ?_⟩
    · intro sF hfd
      obtain ⟨g1, g2, g3, g4⟩ := ihx.1 sF hfd
      refine ⟨g1.trans (hf2.trans hfile1), ?_, ?_, ?_⟩
      · have : x.pos ≤ s2x.pos := by rw [hp2]; omega
        omega
      · rw [← hf2.trans hfile1] at *
        exact hf2 ▸ g3
      · intro q hq hqlt
        by_cases hcase : q < s2x.pos
        · exact hcover q hq hcase
        · intro hqo
          refine g4 q (by omega) hqlt ?_
          rw [hf2.trans hfile1]
          exact hqo
    · intro sF heq
      have g := ihx.2.1 sF heq
      intro q hq hqo
      by_cases hcase : q < s2x.pos
      · exact hcover q hq hcase hqo
      · refine g q (by omega) ?_
        rw [hf2.trans hfile1]
        exact hqo
    · exact ihx.2.2

theorem scanTo_first_occurrence_witness :
    scanToAux [2, 3] fbsFresh ≠ ScanResult.err :=
  (scanTo_first_occurrence [2, 3] fbsFresh
    ⟨by decide, by decide, by decide, by decide, by decide, by decide, by decide⟩
    (by norm_num)).2.2

/-- Counterexample to the unrestricted claim: with the one-byte needle [7]
over the three-byte file, the no-match step skips to the limit itself
(needle length - 1 = 0), the reseek's refill reads zero bytes, and the
seek throws, so scanTo errs instead of returning false. -/
theorem scan_single_byte_needle_cex :
    scanToAux [7] fbsFresh = ScanResult.err := by
  have hr : readFb fbsFresh = (true, fbsLoaded) := by decide
  have h1 : fillTo 1 fbsFresh = (true, fbsLoaded) := by
    rw [fillTo, if_neg (by decide)]
    split
    · rename_i s1 heq
      rw [hr] at heq
      simp at heq
    · rename_i s1 heq
      rw [hr] at heq
      simp only [Prod.mk.injEq, true_and] at heq
      subst heq
      rw [fillTo, if_pos (by decide)]
  have h3 : firstOccur (fbsLoaded.buf.drop fbsLoaded.cur) [7] = none := by decide
  have h4 : seekB (fbsLoaded.pos + (fbsLoaded.buf.length - fbsLoaded.cur)) fbsLoaded = none := by
    decide
  conv_lhs => rw [scanToAux]
  simp only [List.length_singleton, h1, h3, Nat.sub_self, Nat.sub_zero, h4]

end Au
